import Mathlib

/-!
A verification development for the asynchronous core of the libz repository:
the `Error` value type, the promise status machine and promise state,
the promise combinators, the promise resolver, the coroutine awaiter,
and the hierarchical timer wheel.

Every definition is a shallow embedding of the corresponding C++ entity,
translated member by member; comments on each definition point to the
source construct it embeds.
-/

namespace Libz

/-! ## Error (base/error.h, base/error.cc)

`libz::Error` carries a category pointer, an `int` code and an optional
message.  Categories are singletons compared by pointer; we model the
pointer by a tag (`boost`, `syscall`, a general category keyed by name, and
the event category from event/basic.cc).  A null category pointer is
`Option.none`. -/

inductive ErrorCategory where
  | boost
  | syscall
  | general (name : String)
  | eventCat
deriving DecidableEq, Repr

structure Error where
  category : Option ErrorCategory
  code : Int
  message : Option String
deriving DecidableEq, Repr

/-- `Error()`: code `kNoErrorCode = 0`, null category, no message. -/
def emptyError : Error := ⟨none, 0, none⟩

/-- `Error::Has()`: `category_ != nullptr`; also `operator bool`. -/
def Error.has (e : Error) : Bool := e.category.isSome

/-- `Error::MkBoostError(int code, msg)`: returns `{}` when `code == 0`,
otherwise the boost-categorized error carrying `code` and `msg`. -/
def Error.mkBoostError (code : Int) (msg : String) : Error :=
  if code = 0 then emptyError
  else ⟨some ErrorCategory.boost, code, some msg⟩

/-- The `EventError` enum of event/basic.h, in declaration order (the
X-macro list assigns 0,1,2,... in order). -/
inductive EventError where
  | kErrorEventPromiseAny
  | kErrorEventPromiseRace
  | kErrorEventLoopShutdown
  | kErrorUnsupportedEvent
  | kErrorCoroutineException
deriving DecidableEq, Repr

def EventError.toCode : EventError → Int
  | .kErrorEventPromiseAny => 0
  | .kErrorEventPromiseRace => 1
  | .kErrorEventLoopShutdown => 2
  | .kErrorUnsupportedEvent => 3
  | .kErrorCoroutineException => 4

/-- `event::Err(e, args...)`: `Error{Cat(), e, msg}` with the event
category. -/
def Err (e : EventError) (msg : String) : Error :=
  ⟨some ErrorCategory.eventCat, e.toCode, some msg⟩

/-! ## Result (base/result.h)

`Result<T>` is a variant over `{empty, ok T, error}`. -/

inductive Res (α : Type) where
  | empty
  | ok (v : α)
  | error (e : Error)
deriving DecidableEq, Repr

/-- `Result<T>::IsOk()`; also `operator bool`. -/
def Res.isOk {α : Type} : Res α → Bool
  | .ok _ => true
  | _ => false

/-- `Result<T>::PassError()` (DCHECKs that the variant holds an error;
modelled as returning the empty error otherwise). -/
def Res.passError {α : Type} : Res α → Error
  | .error e => e
  | _ => emptyError

/-! ## PromiseStatus and PromiseStatusMachine (promise.h)

The six-state enum and the transition helpers.  `To(from, to)` is the
private guarded transition; the public `ToX` methods are its instances,
and `ToCancelled` accepts `init` and both pre states.  Each transition
returns the C++ `bool` result together with the new status. -/

inductive PromiseStatus where
  | init
  | preFulfilled
  | fulfilled
  | preRejected
  | rejected
  | cancelled
deriving DecidableEq, Repr, BEq, Fintype

namespace PromiseStatusMachine

/-- `PromiseStatusMachine::To(from, to)`. -/
def To (src dst s : PromiseStatus) : Bool × PromiseStatus :=
  if s = src then (true, dst) else (false, s)

def ToPreFulfilled (s : PromiseStatus) : Bool × PromiseStatus :=
  To .init .preFulfilled s

def ToFulfilled (s : PromiseStatus) : Bool × PromiseStatus :=
  To .preFulfilled .fulfilled s

def ToPreRejected (s : PromiseStatus) : Bool × PromiseStatus :=
  To .init .preRejected s

def ToRejected (s : PromiseStatus) : Bool × PromiseStatus :=
  To .preRejected .rejected s

def ToCancelled (s : PromiseStatus) : Bool × PromiseStatus :=
  match s with
  | .init => (true, .cancelled)
  | .preRejected => (true, .cancelled)
  | .preFulfilled => (true, .cancelled)
  | _ => (false, s)

/-- `IsEmpty()`: status is `kInit`. -/
def IsEmpty (s : PromiseStatus) : Bool := s = PromiseStatus.init

/-- `IsPending()`: `IsPreRejected() || IsPreFulfilled()`. -/
def IsPending (s : PromiseStatus) : Bool :=
  s = PromiseStatus.preRejected ∨ s = PromiseStatus.preFulfilled

/-- `IsDone()`: `IsFulfilled() || IsRejected()`. -/
def IsDone (s : PromiseStatus) : Bool :=
  s = PromiseStatus.fulfilled ∨ s = PromiseStatus.rejected

/-- `IsSatisfied()`: `IsPreFulfilled() || IsFulfilled()`. -/
def IsSatisfied (s : PromiseStatus) : Bool :=
  s = PromiseStatus.preFulfilled ∨ s = PromiseStatus.fulfilled

/-- `IsUnsatisfied()`: `IsPreRejected() || IsRejected()`. -/
def IsUnsatisfied (s : PromiseStatus) : Bool :=
  s = PromiseStatus.preRejected ∨ s = PromiseStatus.rejected

/-- `IsSettled()`: `!IsEmpty() && !IsCancelled()`. -/
def IsSettled (s : PromiseStatus) : Bool :=
  ¬s = PromiseStatus.init ∧ ¬s = PromiseStatus.cancelled

end PromiseStatusMachine

/-! ### Status-machine lifetimes (claim C2)

A lifetime of a `PromiseStatusMachine` is a sequence of calls to the five
public transition methods (`Force` is used only by the `PromiseState<void>`
specialization, which has its own model below). -/

inductive MachineOp where
  | toPreFulfilled
  | toFulfilled
  | toPreRejected
  | toRejected
  | toCancelled
deriving DecidableEq, Repr, Fintype

/-- The status after one transition method call. -/
def applyOp (op : MachineOp) (s : PromiseStatus) : PromiseStatus :=
  match op with
  | .toPreFulfilled => (PromiseStatusMachine.ToPreFulfilled s).2
  | .toFulfilled => (PromiseStatusMachine.ToFulfilled s).2
  | .toPreRejected => (PromiseStatusMachine.ToPreRejected s).2
  | .toRejected => (PromiseStatusMachine.ToRejected s).2
  | .toCancelled => (PromiseStatusMachine.ToCancelled s).2

/-- Membership in `{preFulfilled, preRejected}`. -/
def preSet (s : PromiseStatus) : Bool :=
  s = PromiseStatus.preFulfilled ∨ s = PromiseStatus.preRejected

/-- Membership in `{fulfilled, rejected}`. -/
def doneSet (s : PromiseStatus) : Bool :=
  s = PromiseStatus.fulfilled ∨ s = PromiseStatus.rejected

/-- Membership in `{fulfilled, rejected, cancelled}` (the terminal set). -/
def terminalSet (s : PromiseStatus) : Bool :=
  s = PromiseStatus.fulfilled ∨ s = PromiseStatus.rejected ∨
    s = PromiseStatus.cancelled

/-- How many steps of the run of `ops` from `s` enter the set `P`
(move from a status outside `P` to one inside `P`). -/
def countEntries (P : PromiseStatus → Bool) : PromiseStatus → List MachineOp → Nat
  | _, [] => 0
  | s, op :: ops =>
      let s' := applyOp op s
      (if ¬P s ∧ P s' then 1 else 0) + countEntries P s' ops

/-! ## PromiseState<T> (promise.h, non-void specialization)

The shared state holds a status machine, an optional `Result<T>` storage,
a callback, an executor pointer, and chain pointers.  The callback and the
executor are opaque to the status logic, so the model keeps:

* `hasCallback` — whether `callback_` holds a functor (its boolean
  conversion), cleared when `InvokeCallback` passes it out or `Cancel`
  purges it;
* `hasExecutor` — whether `executor_` is non-null;
* `hasCoHandle` — whether `co_handle_` holds a coroutine handle
  (`ENABLE_CO` build);
* `posted` — the number of trampolines sitting in the executor's queue
  (the effect of `executor_->Post`), all closing over this state;
* `cbRuns` — how many times the user callback has actually been invoked
  (the observable effect of `InvokeCallback`).

`posted` and `cbRuns` instrument the state's interaction with its
environment; the remaining fields are the C++ members. -/

structure PState (α : Type) where
  status : PromiseStatus
  storage : Option (Res α)
  hasCallback : Bool
  hasExecutor : Bool
  hasCoHandle : Bool
  posted : Nat
  cbRuns : Nat
deriving DecidableEq, Repr

/-- A freshly constructed `PromiseState<T>`. -/
def initPState (α : Type) : PState α :=
  ⟨.init, none, false, false, false, 0, 0⟩

namespace PState

variable {α : Type}

/-- The trampoline lambda built inside `TryInvokeCallback`: on
`kPreFulfilled` it CHECKs `ToFulfilled()` and calls `InvokeCallback()`
(which passes the callback out of `callback_` and invokes it on the moved
storage); symmetrically for `kPreRejected`; any other status falls into
the `default` branch and does nothing.  The C++ wraps this in `BindWeak`,
so it is a no-op once the state is destroyed; the model only runs it on a
live state. -/
def runTrampoline (s : PState α) : PState α :=
  match s.status with
  | .preFulfilled =>
      { s with status := .fulfilled, hasCallback := false,
               cbRuns := s.cbRuns + 1 }
  | .preRejected =>
      { s with status := .rejected, hasCallback := false,
               cbRuns := s.cbRuns + 1 }
  | _ => s

/-- `RunInExecutor`: post to the executor when one is attached, otherwise
run the thunk synchronously. -/
def runInExecutor (s : PState α) : PState α :=
  if s.hasExecutor then { s with posted := s.posted + 1 }
  else runTrampoline s

/-- `TryInvokeCallback()`: when a callback is attached and the status is
pending, hand the trampoline to `RunInExecutor`. -/
def tryInvokeCallback (s : PState α) : PState α :=
  if s.hasCallback ∧ PromiseStatusMachine.IsPending s.status then
    runInExecutor s
  else s

/-- `PromiseState<T>::Resolve(value)`: only from `kInit`; stores the ok
result, transitions to `kPreFulfilled`, tries to invoke the callback, and
returns `true`; otherwise returns `false` without touching the state. -/
def Resolve (s : PState α) (v : α) : PState α × Bool :=
  if PromiseStatusMachine.IsEmpty s.status then
    (tryInvokeCallback { s with storage := some (Res.ok v),
                                status := .preFulfilled }, true)
  else (s, false)

/-- `PromiseState<T>::Reject(error)`: only from `kInit`; stores the error,
transitions to `kPreRejected`, tries to invoke the callback. -/
def Reject (s : PState α) (e : Error) : PState α × Bool :=
  if PromiseStatusMachine.IsEmpty s.status then
    (tryInvokeCallback { s with storage := some (Res.error e),
                                status := .preRejected }, true)
  else (s, false)

/-- `PromiseState<T>::Cancel()` (the non-virtual member that
`Promise<T>::Cancel` dispatches to): when the status is `kInit` or
pending, purge the callback and the storage, destroy the coroutine
handle, and `ToCancelled()`; otherwise do nothing. -/
def Cancel (s : PState α) : PState α :=
  if PromiseStatusMachine.IsEmpty s.status ∨
      PromiseStatusMachine.IsPending s.status then
    { s with hasCallback := false, storage := none, hasCoHandle := false,
             status := (PromiseStatusMachine.ToCancelled s.status).2 }
  else s

/-- `AddCallback(cb, executor)` (the tail of every `Attach` overload):
install the callback and the executor, then `TryInvokeCallback()`. -/
def addCallback (s : PState α) (executor : Bool) : PState α :=
  tryInvokeCallback { s with hasCallback := true, hasExecutor := executor }

/-- One step of the executor draining its queue: run one posted
trampoline. -/
def executorRunOne (s : PState α) : PState α :=
  if s.posted ≠ 0 then runTrampoline { s with posted := s.posted - 1 }
  else s

end PState

/-! ## PromiseState<void> (promise.h, void specialization)

Its storage is an optional `Result<void>`, i.e. an optional
error-or-nothing; it has no callback or executor.  Per the comment in the
source, `Resolve`/`Reject` do not pass through the pre states: they build
the `Result<void>` and call `PropagateResult`, which stores it and
`Force`s the status straight to `kFulfilled`/`kRejected`, then forwards a
copy to the `next()` propagator.  A `Result<void>` is modelled as
`Option Error` (`none` = ok). -/

structure PStateVoid where
  status : PromiseStatus
  storage : Option (Option Error)
deriving DecidableEq, Repr

def initPStateVoid : PStateVoid := ⟨.init, none⟩

namespace PStateVoid

/-- `PromiseState<void>::PropagateResult` on a state whose `next()` is
null: store the result and `Force` the matching terminal status. -/
def PropagateResult (s : PStateVoid) (r : Option Error) : PStateVoid :=
  { s with storage := some r,
           status := if r.isNone then .fulfilled else .rejected }

/-- `PromiseState<void>::Resolve()`: only from `kInit`; builds the ok
`Result<void>` and propagates it. -/
def Resolve (s : PStateVoid) : PStateVoid × Bool :=
  if PromiseStatusMachine.IsEmpty s.status then
    (s.PropagateResult none, true)
  else (s, false)

/-- `PromiseState<void>::Reject(e)`: only from `kInit`. -/
def Reject (s : PStateVoid) (e : Error) : PStateVoid × Bool :=
  if PromiseStatusMachine.IsEmpty s.status then
    (s.PropagateResult (some e), true)
  else (s, false)

end PStateVoid

/-! ## Promise chains and Cancel (claim C4)

A chain of `PromiseState`s connected by `next_` pointers (set by `Watch`)
is modelled as a list: node `i`'s `next()` is node `i + 1`, and the last
node's `next()` is null.  For cancellation only the status, the callback,
the storage and the coroutine handle matter, so a node carries exactly
those observables. -/

structure ChainNode where
  status : PromiseStatus
  hasCallback : Bool
  hasStorage : Bool
  hasCoHandle : Bool
deriving DecidableEq, Repr

namespace ChainNode

/-- `PromiseState<T>::Cancel()` acting on one node (see
`PState.Cancel`). -/
def cancelOne (n : ChainNode) : ChainNode :=
  if PromiseStatusMachine.IsEmpty n.status ∨
      PromiseStatusMachine.IsPending n.status then
    { status := (PromiseStatusMachine.ToCancelled n.status).2,
      hasCallback := false, hasStorage := false, hasCoHandle := false }
  else n

end ChainNode

/-- Apply `f` position-wise, the head of the list being at position
`k`. -/
def mapWithIndex (f : Nat → ChainNode → ChainNode) :
    Nat → List ChainNode → List ChainNode
  | _, [] => []
  | k, n :: rest => f k n :: mapWithIndex f (k + 1) rest

/-- `Promise<T>::Cancel()`: `state_->Cancel()`.  `state_` has static type
`PromiseState<T>`, whose non-virtual `Cancel` shadows
`PromiseStateBase::Cancel`; only the promise's own state (node `i`) is
touched. -/
def promiseCancel (ch : List ChainNode) (i : Nat) : List ChainNode :=
  mapWithIndex (fun j n => if j = i then n.cancelOne else n) 0 ch

/-- `PromiseStateBase::Cancel()`: walk `this, this->next(), ...` and on
each node run `ToCancelled()`, calling the (no-op by default) `OnCancel`
hook when the transition succeeds.  `PromiseState<T>` overrides neither
`Cancel` (virtually) nor `OnCancel`, so this walk changes statuses only
and releases no callback/storage/handle. -/
def baseCancel (ch : List ChainNode) (i : Nat) : List ChainNode :=
  mapWithIndex (fun j n =>
    if i ≤ j then
      { n with status := (PromiseStatusMachine.ToCancelled n.status).2 }
    else n) 0 ch

/-! ## PromiseResolver<T> (claim C9)

The resolver holds a `std::weak_ptr` to the state.  A weak pointer either
locks to the live state or is expired; we model it as an `Option`:
`none` is the expired resolver. -/

def Resolver (α : Type) : Type := Option (PState α)

namespace Resolver

variable {α : Type}

/-- `PromiseResolver<T>::Resolve(val)`: lock the weak pointer; on success
delegate to the state, otherwise return `false`. -/
def Resolve (r : Resolver α) (v : α) : Resolver α × Bool :=
  match r with
  | some p => let q := PState.Resolve p v; (some q.1, q.2)
  | none => (none, false)

/-- `PromiseResolver<T>::Reject(e)`. -/
def Reject (r : Resolver α) (e : Error) : Resolver α × Bool :=
  match r with
  | some p => let q := PState.Reject p e; (some q.1, q.2)
  | none => (none, false)

/-- `PromiseResolver<T>::Set(r)`: `if (r) Resolve(r.PassResult()) else
Reject(r.PassError())`. -/
def Set (r : Resolver α) (res : Res α) : Resolver α × Bool :=
  match res with
  | .ok v => Resolve r v
  | other => Reject r other.passError

/-- `PromiseResolver<T>::Cancel()`: on a successful lock, cancel the
state; otherwise do nothing. -/
def Cancel (r : Resolver α) : Resolver α :=
  match r with
  | some p => some p.Cancel
  | none => none

/-- `PromiseResolver<T>::IsDone()` and friends: an engaged optional on a
successful lock, the empty optional otherwise. -/
def IsDone (r : Resolver α) : Option Bool :=
  r.map (fun p => PromiseStatusMachine.IsDone p.status)

def IsEmpty (r : Resolver α) : Option Bool :=
  r.map (fun p => PromiseStatusMachine.IsEmpty p.status)

def IsSettled (r : Resolver α) : Option Bool :=
  r.map (fun p => PromiseStatusMachine.IsSettled p.status)

def IsSatisfied (r : Resolver α) : Option Bool :=
  r.map (fun p => PromiseStatusMachine.IsSatisfied p.status)

def IsUnsatisfied (r : Resolver α) : Option Bool :=
  r.map (fun p => PromiseStatusMachine.IsUnsatisfied p.status)

/-- `PromiseResolver<T>::IsExpired()`: `ptr_.expired()`. -/
def IsExpired (r : Resolver α) : Bool := r.isNone

end Resolver

/-! ## The coroutine awaiter (claim C8)

`PromiseAwaiter<T>::await_ready()` is `promise_.IsPending()`, and the
`PromiseAwaiter<void>` specialization used by `Notifier` is
`ntfr_.IsPending()`; both go through
`PromiseStateBase::IsPending` to the status machine. -/

def awaitReady {α : Type} (s : PState α) : Bool :=
  PromiseStatusMachine.IsPending s.status

/-- `Notifier` is `Promise<libz::Dummy>`; `Dummy` is an empty struct,
modelled as `Unit`. -/
def notifierAwaitReady (s : PState Unit) : Bool := awaitReady s

/-! ## Aggregation combinators (claim C5)

`MkResolvedPromise`/`MkRejectedPromise` build a fresh state and settle it
immediately (no callback or executor is attached yet, so
`TryInvokeCallback` does nothing and the state stays in the matching pre
status with the outcome stored).

Each combinator first checks for empty input.  On non-empty input it
builds a fresh `init` state via `MkPromise`/`MkAttachmentPromise` and
attaches a continuation to every input promise; nothing settles the fresh
state before the executor runs, which is outside the scope of the claim,
so the model keeps that branch abstract as `subscribed` with the input
count. -/

/-- `MkResolvedPromise(val)`. -/
def mkResolvedPromise {α : Type} (v : α) : PState α :=
  (PState.Resolve (initPState α) v).1

/-- `MkRejectedPromise<T>(e)`. -/
def mkRejectedPromise (α : Type) (e : Error) : PState α :=
  (PState.Reject (initPState α) e).1

inductive CombinatorReturn (α : Type) where
  | immediate (st : PState α)
  | subscribed (inputCount : Nat)
deriving DecidableEq, Repr

/-- `MkAllPromise(begin, end, executor)`: empty range returns
`MkResolvedPromise(R{})` with `R = std::vector<Type>`. -/
def mkAllPromise {α : Type} (inputs : List (PState α)) :
    CombinatorReturn (List α) :=
  if inputs.isEmpty then .immediate (mkResolvedPromise [])
  else .subscribed inputs.length

/-- `MkAnyPromise(begin, end, executor)`: empty range returns
`MkRejectedPromise<R>(Err(kErrorEventPromiseAny, "no promise"))`. -/
def mkAnyPromise {α : Type} (inputs : List (PState α)) : CombinatorReturn α :=
  if inputs.isEmpty then
    .immediate (mkRejectedPromise α (Err .kErrorEventPromiseAny "no promise"))
  else .subscribed inputs.length

/-- `MkAnyPromiseAttachContainer(container, executor)`: the empty check
returns the same rejected promise as `MkAnyPromise`. -/
def mkAnyPromiseAttachContainer {α : Type} (inputs : List (PState α)) :
    CombinatorReturn α :=
  if inputs.isEmpty then
    .immediate (mkRejectedPromise α (Err .kErrorEventPromiseAny "no promise"))
  else .subscribed inputs.length

/-- `MkRacePromise(begin, end, executor)`: empty range returns
`MkRejectedPromise<R>(Err(kErrorEventPromiseRace, "no promise"))`. -/
def mkRacePromise {α : Type} (inputs : List (PState α)) : CombinatorReturn α :=
  if inputs.isEmpty then
    .immediate (mkRejectedPromise α (Err .kErrorEventPromiseRace "no promise"))
  else .subscribed inputs.length

/-- `MkRacePromiseAttachContainer(container, executor)`: the empty check
evaluates `MkRejectedPromise<R>(Err(kErrorEventPromiseRace, "no promise"))`
but lacks a `return`, discarding it and falling through to
`MkAttachmentPromise` over the empty container, whose setup lambda
iterates zero times — the returned attachment state is still `kInit`. -/
def mkRacePromiseAttachContainer {α : Type} (inputs : List (PState α)) :
    CombinatorReturn α :=
  if inputs.isEmpty then .immediate (initPState α)
  else .subscribed inputs.length

/-! ## TimerWheel (base/timer-wheel.h, base/timer-wheel.cc)

Constants: `kWidthBits = 8`, `kNumLevels = (64 + 7) / 8 = 8`,
`kMaxLevel = 7`, `kNumSlots = 256`, `kMask = 255`.

A `TimerEventBase` in a slot is identified by its `scheduled_at_` tick
plus an id distinguishing distinct event objects; its `Execute()` hook is
modelled as appending the event to an execution log carried alongside the
wheel (the callbacks of the claims only record their invocation).

The C++ wheel stores one counter per level.  The constructor sets
`now_[i] = now >> (kWidthBits * i)`, and `now_[i]` is incremented exactly
when the level-0 clock crosses a multiple of `2^(8*i)` (each level-0 tick
with `(now_[0] & kMask) == 0` recursively advances level 1 by one tick
before level 0's slot is drained, and so on upwards), so at every point
where the code reads `now_[i]` — the `now` argument of
`ProcessCurrentSlot`, the phase folds and the final slot computation of
`Schedule`, and the pending path of `Advance` — the stored counter equals
`now_[0] >> (kWidthBits * i)`.  The model therefore keeps the single
level-0 clock `now` and derives level `i`'s counter as
`now >>> (8 * i)`; the `++now_[level]` of a nested `Advance(1, ..., level)`
is implicit in the level-0 increment that triggered the cascade.

`&&& kMask` is written `% 256` (equal on `Nat`).

`max_execute` is a `std::size_t` passed by value into every call, so each
`ProcessCurrentSlot` invocation starts from the caller's undecremented
budget; the model threads it the same way.  `!--max_execute` is modelled
as `m - 1 = 0`; this matches the C++ for every `m ≥ 1` (the claims use the
unbounded default `SIZE_MAX`, for which the test never fires). -/

structure TimerEvent where
  id : Nat
  scheduledAt : Nat
deriving DecidableEq, Repr

structure TimerWheel where
  now : Nat
  ticksPending : Nat
  slots : Nat → Nat → List TimerEvent
  log : List TimerEvent

/-- `TimerWheel(Tick now)`: all slots empty, `ticks_pending_ = 0`. -/
def mkTimerWheel (now : Nat) : TimerWheel :=
  ⟨now, 0, fun _ _ => [], []⟩

/-- Replace the contents of one slot. -/
def slotSet (slots : Nat → Nat → List TimerEvent) (ℓ s : Nat)
    (l : List TimerEvent) : Nat → Nat → List TimerEvent :=
  fun ℓ' s' => if ℓ' = ℓ ∧ s' = s then l else slots ℓ' s'

/-- `TimerEventBase::Relink(slot)` into an empty-prev position: the event
is pushed at the head of the slot's list (and `PopEvent` pops the head, so
a slot is a LIFO stack). -/
def slotInsert (slots : Nat → Nat → List TimerEvent) (ℓ s : Nat)
    (e : TimerEvent) : Nat → Nat → List TimerEvent :=
  slotSet slots ℓ s (e :: slots ℓ s)

/-- The level walk of `TimerWheel::Schedule`:
`for (; delta >= kNumSlots; ++level) delta = (delta + (now_[level] & kMask)) >> kWidthBits;`
written with explicit fuel to make it structurally recursive; any
`fuel ≥ delta` is enough, because an iteration runs only when
`delta ≥ 256` and then replaces `delta` by at most `(delta + 255) / 256
< delta`.  Returns the final `(level, delta)`. -/
def walkF (now : Nat) : Nat → Nat → Nat → Nat × Nat
  | 0, delta, level => (level, delta)
  | fuel + 1, delta, level =>
      if 256 ≤ delta then
        walkF now fuel ((delta + ((now >>> (8 * level)) % 256)) >>> 8)
          (level + 1)
      else (level, delta)

def walk (now delta : Nat) : Nat × Nat := walkF now delta delta 0

/-- `TimerWheel::Schedule(event, delta)` (DCHECKs `delta > 0`): set
`scheduled_at_ = now_[0] + delta`, run the level walk, and relink the
event into `slots_[level][(now_[level] + delta) & kMask]`. -/
def Schedule (w : TimerWheel) (id : Nat) (delta : Nat) : TimerWheel :=
  let sa := w.now + delta
  let ld := walk w.now delta
  let slotIdx := ((w.now >>> (8 * ld.1)) + ld.2) % 256
  { w with slots := slotInsert w.slots ld.1 slotIdx ⟨id, sa⟩ }

/-- The `while (slot->events())` loop at the end of
`ProcessCurrentSlot(now, max_execute, level)`: pop the head event; at an
outer level, execute it when `now_[0] >= scheduled_at()` and otherwise
re-`Schedule` it at its residual delta; at level 0, execute it.  Each
execution decrements the local `max_execute` copy, and `!--max_execute`
aborts with `false`.  The loop re-reads the slot every iteration; fuel
equal to the slot's length at entry is exact because `Schedule` always
inserts at an offset in `[1, 255]` from the current counter of the target
level and therefore never refills the slot being drained. -/
def drainLoop (level slotIdx : Nat) :
    Nat → TimerWheel → Nat → TimerWheel × Bool
  | 0, w, _ => (w, true)
  | fuel + 1, w, m =>
      match w.slots level slotIdx with
      | [] => (w, true)
      | e :: rest =>
          let w1 : TimerWheel := { w with slots := slotSet w.slots level slotIdx rest }
          if 0 < level then
            if e.scheduledAt ≤ w1.now then
              let w2 := { w1 with log := w1.log ++ [e] }
              if m - 1 = 0 then (w2, false)
              else drainLoop level slotIdx fuel w2 (m - 1)
            else
              drainLoop level slotIdx fuel
                (Schedule w1 e.id (e.scheduledAt - w1.now)) m
          else
            let w2 := { w1 with log := w1.log ++ [e] }
            if m - 1 = 0 then (w2, false)
            else drainLoop level slotIdx fuel w2 (m - 1)

/-- `TimerWheel::ProcessCurrentSlot(now, max_execute, level)`, with
`left = kMaxLevel - level` as the structural recursion fuel for the
upward cascade.  When `slot_index == 0 && level < kMaxLevel` it first runs
`Advance(1, max_execute, level + 1)`, inlined here for a level `> 0`:

* with `ticks_pending_ != 0` that call reprocesses the current slot of
  `level + 1` without advancing it and propagates the result;
* otherwise it advances `level + 1` by one tick (the stored counter
  increment is implicit in the derived clock) and processes its slot; on a
  `false` return its loop stores `ticks_pending_ = 1`.

Then the current slot is drained. -/
def processCurrentSlot : Nat → TimerWheel → Nat → Nat → TimerWheel × Bool
  | 0, w, m, level =>
      drainLoop level ((w.now >>> (8 * level)) % 256)
        (w.slots level ((w.now >>> (8 * level)) % 256)).length w m
  | left + 1, w, m, level =>
      let slotIdx := (w.now >>> (8 * level)) % 256
      if slotIdx = 0 then
        let inner :=
          if w.ticksPending ≠ 0 then processCurrentSlot left w m (level + 1)
          else
            let r := processCurrentSlot left w m (level + 1)
            if r.2 then r else ({ r.1 with ticksPending := 1 }, false)
        if inner.2 then
          drainLoop level slotIdx (inner.1.slots level slotIdx).length
            inner.1 m
        else inner
      else
        drainLoop level slotIdx (w.slots level slotIdx).length w m

/-- The `while (delta--)` loop of `Advance` at level 0: each iteration
increments `now_[0]` and processes the current slot; a `false` from
`ProcessCurrentSlot` stores the remaining tick count (the failed tick
included) in `ticks_pending_` and aborts. -/
def advanceLoop : Nat → TimerWheel → Nat → TimerWheel × Bool
  | 0, w, _ => (w, true)
  | d + 1, w, m =>
      let w1 : TimerWheel := { w with now := w.now + 1 }
      let r := processCurrentSlot 7 w1 m 0
      if r.2 then advanceLoop d r.1 m
      else ({ r.1 with ticksPending := d + 1 }, false)

/-- `TimerWheel::Advance(delta, max_execute)` (the public level-0 entry;
`Advance` on outer levels is inlined in `processCurrentSlot`).  With
`ticks_pending_ != 0` (a previous call aborted on `max_execute`), the
pending delta is accumulated, the aborted tick's slot is reprocessed
without advancing the clock, and on success the loop resumes with the
remaining `ticks_pending_ - 1` ticks.  Otherwise (DCHECK `delta > 0`) the
loop advances `delta` ticks.  Returns `true` when everything due was
processed. -/
def Advance (w : TimerWheel) (delta : Nat) (maxExecute : Nat) :
    TimerWheel × Bool :=
  if w.ticksPending ≠ 0 then
    let w0 : TimerWheel := { w with ticksPending := w.ticksPending + delta }
    let r := processCurrentSlot 7 w0 maxExecute 0
    if r.2 then
      advanceLoop (r.1.ticksPending - 1) { r.1 with ticksPending := 0 }
        maxExecute
    else r
  else advanceLoop delta w maxExecute

/-- Schedule a batch of `(id, delta)` pairs in order (each from the same
starting clock, which `Schedule` does not move). -/
def scheduleAll (w : TimerWheel) : List (Nat × Nat) → TimerWheel
  | [] => w
  | p :: rest => scheduleAll (Schedule w p.1 p.2) rest

/-- How many times the event `e` is linked somewhere in the wheel. -/
def wheelCount (w : TimerWheel) (e : TimerEvent) : Nat :=
  ∑ ℓ ∈ Finset.range 8, ∑ s ∈ Finset.range 256, (w.slots ℓ s).count e

/-- The total number of linked events. -/
def wheelSize (w : TimerWheel) : Nat :=
  ∑ ℓ ∈ Finset.range 8, ∑ s ∈ Finset.range 256, (w.slots ℓ s).length

/-! ### Specification vocabulary for the wheel proofs -/

/-- The distance, in level-`ℓ` slot units, from the clock `now` to the
tick `sa`; equals the residual delta of the `Schedule` level walk
(`>>> (8 * ℓ)` written as division). -/
def dAt (now sa ℓ : Nat) : Nat :=
  sa / 2 ^ (8 * ℓ) - now / 2 ^ (8 * ℓ)

/-- A correctly placed linked event: it sits in the slot addressed by its
own tick at its level, strictly ahead of the clock and at most one level
rotation away. -/
def eventOk (now ℓ s : Nat) (e : TimerEvent) : Prop :=
  s = e.scheduledAt / 2 ^ (8 * ℓ) % 256 ∧
    1 ≤ dAt now e.scheduledAt ℓ ∧ dAt now e.scheduledAt ℓ ≤ 255

/-- The wheel invariant between `Advance` ticks: every linked event is
correctly placed on a level `≤ kMaxLevel` relative to the current
clock. -/
def WheelInv (w : TimerWheel) : Prop :=
  ∀ ℓ s e, e ∈ w.slots ℓ s → ℓ ≤ 7 ∧ s ≤ 255 ∧ eventOk w.now ℓ s e

/-- The slot of level `ℓ` that tick `n` processes. -/
def dueSlot (n ℓ : Nat) : Nat := n / 2 ^ (8 * ℓ) % 256

/-- The per-slot condition in the middle of processing tick `n`, with
levels `≥ bound` already drained: an event in the due slot of a level `k`
(so `2^(8k)` divides `n`; level 0 is always due) can only sit on a
not-yet-drained level and is exactly due — its tick equals `n` in
level-`k` units and is not in the past.  An event anywhere else is
correctly placed. -/
def SlotCond (n bound k s : Nat) (e : TimerEvent) : Prop :=
  if 2 ^ (8 * k) ∣ n ∧ s = dueSlot n k
  then k < bound ∧ e.scheduledAt / 2 ^ (8 * k) = n / 2 ^ (8 * k) ∧
       n ≤ e.scheduledAt
  else eventOk n k s e

/-- The wheel state in the middle of processing tick `n`: levels with
index `≥ bound` have already drained their due slot; the entry state of
the tick is `bound = 8` (nothing drained yet), and `bound = 0` at the end
of the tick says every due slot is empty. -/
def MidState (n bound : Nat) (w : TimerWheel) : Prop :=
  w.now = n ∧
  ∀ k s e, e ∈ w.slots k s → k ≤ 7 ∧ s ≤ 255 ∧ SlotCond n bound k s e

/-- The execution log invariant: executions so far are sorted by
scheduled tick and never ahead of the clock. -/
def LogOk (w : TimerWheel) : Prop :=
  w.log.Pairwise (fun a b => a.scheduledAt ≤ b.scheduledAt) ∧
    ∀ e ∈ w.log, e.scheduledAt ≤ w.now

/-! ## Theorems -/

/-! ### The status machine (claim C2) -/

lemma applyOp_ne_init : ∀ (op : MachineOp) (s : PromiseStatus),
    s ≠ .init → applyOp op s ≠ .init := by decide

lemma preSet_ne_init : ∀ s : PromiseStatus, preSet s → s ≠ .init := by decide

lemma preEntry_src_init : ∀ (op : MachineOp) (s : PromiseStatus),
    ¬preSet s → preSet (applyOp op s) → s = .init := by decide

lemma doneSet_terminal : ∀ s : PromiseStatus, doneSet s → terminalSet s := by
  decide

lemma terminal_absorbing : ∀ (op : MachineOp) (s : PromiseStatus),
    terminalSet s → applyOp op s = s := by decide

lemma countEntries_pre_zero :
    ∀ (ops : List MachineOp) (s : PromiseStatus), s ≠ .init →
      countEntries preSet s ops = 0 := by
  intro ops
  induction ops with
  | nil => intro s _; rfl
  | cons op ops ih =>
      intro s h
      have h1 : ¬(¬preSet s ∧ preSet (applyOp op s)) := by
        rintro ⟨ha, hb⟩
        exact h (preEntry_src_init op s ha hb)
      simp only [countEntries, if_neg h1, Nat.zero_add]
      exact ih _ (applyOp_ne_init op s h)

lemma countEntries_pre_le_one :
    ∀ (ops : List MachineOp) (s : PromiseStatus),
      countEntries preSet s ops ≤ 1 := by
  intro ops
  induction ops with
  | nil => intro s; exact Nat.zero_le 1
  | cons op ops ih =>
      intro s
      by_cases h : ¬preSet s ∧ preSet (applyOp op s)
      · simp only [countEntries, if_pos h]
        have h0 : countEntries preSet (applyOp op s) ops = 0 :=
          countEntries_pre_zero ops _ (preSet_ne_init _ h.2)
        omega
      · simp only [countEntries, if_neg h, Nat.zero_add]
        exact ih _

lemma countEntries_done_zero :
    ∀ (ops : List MachineOp) (s : PromiseStatus), terminalSet s →
      countEntries doneSet s ops = 0 := by
  intro ops
  induction ops with
  | nil => intro s _; rfl
  | cons op ops ih =>
      intro s h
      have habs := terminal_absorbing op s h
      simp only [countEntries, habs]
      have h1 : ¬(¬doneSet s = true ∧ doneSet s = true) := by
        rintro ⟨ha, hb⟩
        exact ha hb
      rw [if_neg h1]
      simpa using ih s h

lemma countEntries_done_le_one :
    ∀ (ops : List MachineOp) (s : PromiseStatus),
      countEntries doneSet s ops ≤ 1 := by
  intro ops
  induction ops with
  | nil => intro s; exact Nat.zero_le 1
  | cons op ops ih =>
      intro s
      by_cases h : ¬doneSet s ∧ doneSet (applyOp op s)
      · simp only [countEntries, if_pos h]
        have h0 : countEntries doneSet (applyOp op s) ops = 0 :=
          countEntries_done_zero ops _ (doneSet_terminal _ h.2)
        omega
      · simp only [countEntries, if_neg h, Nat.zero_add]
        exact ih _

lemma runTrampoline_storage {α : Type} (s : PState α) :
    s.runTrampoline.storage = s.storage := by
  cases h : s.status <;> simp [PState.runTrampoline, h]

lemma tryInvokeCallback_storage {α : Type} (s : PState α) :
    s.tryInvokeCallback.storage = s.storage := by
  unfold PState.tryInvokeCallback PState.runInExecutor
  split
  · split
    · rfl
    · exact runTrampoline_storage s
  · rfl

/-- C2: a promise status machine, over any sequence of its transition
operations starting from `kInit`, enters `{preFulfilled, preRejected}` at
most once and `{fulfilled, rejected}` at most once; `fulfilled`,
`rejected` and `cancelled` are fixed by every operation; and
`PromiseState<T>::Resolve`/`Reject` return `true` — storing the outcome —
exactly when the status is `kInit`, leaving the state untouched
otherwise. -/
theorem C2_settlement_at_most_once :
    (∀ ops : List MachineOp, countEntries preSet .init ops ≤ 1) ∧
    (∀ ops : List MachineOp, countEntries doneSet .init ops ≤ 1) ∧
    (∀ (op : MachineOp) (s : PromiseStatus), terminalSet s →
      applyOp op s = s) ∧
    (∀ (α : Type) (s : PState α) (v : α),
      ((PState.Resolve s v).2 = true ↔ s.status = .init) ∧
      ((PState.Resolve s v).2 = true →
        (PState.Resolve s v).1.storage = some (Res.ok v)) ∧
      ((PState.Resolve s v).2 = false → (PState.Resolve s v).1 = s)) ∧
    (∀ (α : Type) (s : PState α) (e : Error),
      ((PState.Reject s e).2 = true ↔ s.status = .init) ∧
      ((PState.Reject s e).2 = true →
        (PState.Reject s e).1.storage = some (Res.error e)) ∧
      ((PState.Reject s e).2 = false → (PState.Reject s e).1 = s)) := by
  refine ⟨fun ops => countEntries_pre_le_one ops _,
          fun ops => countEntries_done_le_one ops _,
          terminal_absorbing, ?_, ?_⟩
  · intro α s v
    by_cases h : s.status = PromiseStatus.init
    · have hg : PromiseStatusMachine.IsEmpty s.status = true := by
        simp [PromiseStatusMachine.IsEmpty, h]
      simp only [PState.Resolve, hg, if_true]
      refine ⟨by simp [h], ?_, by simp⟩
      intro _
      rw [tryInvokeCallback_storage]
    · have hg : ¬PromiseStatusMachine.IsEmpty s.status = true := by
        simp [PromiseStatusMachine.IsEmpty, h]
      simp only [PState.Resolve, if_neg hg]
      exact ⟨by simp [h], by simp, by simp⟩
  · intro α s e
    by_cases h : s.status = PromiseStatus.init
    · have hg : PromiseStatusMachine.IsEmpty s.status = true := by
        simp [PromiseStatusMachine.IsEmpty, h]
      simp only [PState.Reject, hg, if_true]
      refine ⟨by simp [h], ?_, by simp⟩
      intro _
      rw [tryInvokeCallback_storage]
    · have hg : ¬PromiseStatusMachine.IsEmpty s.status = true := by
        simp [PromiseStatusMachine.IsEmpty, h]
      simp only [PState.Reject, if_neg hg]
      exact ⟨by simp [h], by simp, by simp⟩

/-- Witness for C2 at concrete inputs. -/
theorem C2_settlement_at_most_once_witness :
    terminalSet PromiseStatus.fulfilled = true ∧
    applyOp MachineOp.toCancelled PromiseStatus.fulfilled =
      PromiseStatus.fulfilled ∧
    countEntries preSet PromiseStatus.init
      [MachineOp.toPreFulfilled, MachineOp.toFulfilled] ≤ 1 ∧
    ((PState.Resolve (initPState Nat) 7).2 = true ↔
      (initPState Nat).status = PromiseStatus.init) := by
  refine ⟨by decide, C2_settlement_at_most_once.2.2.1 _ _ (by decide),
    C2_settlement_at_most_once.1 _, (C2_settlement_at_most_once.2.2.2.1
      Nat (initPState Nat) 7).1⟩

/-! ### Executor quarantine of terminal transitions (claim C3) -/

/-- C3, counterexample: the claim says every promise reaches
`fulfilled`/`rejected` only from within the executor-posted trampoline
and is in the matching pre status right after `resolve` returns; but
`PromiseState<void>::Resolve()` on a fresh state `Force`s the status to
`fulfilled` synchronously, before returning `true` — no pre status, no
executor involved. -/
theorem C3_counterexample :
    (PStateVoid.Resolve initPStateVoid).2 = true ∧
    (PStateVoid.Resolve initPStateVoid).1.status = PromiseStatus.fulfilled ∧
    ¬(PStateVoid.Resolve initPStateVoid).1.status =
      PromiseStatus.preFulfilled := by
  decide

/-- C3, amended: for the non-void `PromiseState<T>` with a non-null
executor attached, `Resolve`/`Reject` from `kInit` leave the state in the
matching pre status with the user callback not yet run; when a callback is
attached, one trampoline is posted, and only the executor running it
moves the state to the terminal status and invokes the callback exactly
once.  (The `PromiseState<void>` specialization instead `Force`s the
terminal status synchronously, and with a null executor the trampoline
runs inline.) -/
theorem C3_terminal_only_in_executor {α : Type} (s : PState α) (v : α)
    (e : Error) (hinit : s.status = PromiseStatus.init)
    (hexec : s.hasExecutor = true) :
    ((PState.Resolve s v).1.status = PromiseStatus.preFulfilled ∧
     (PState.Resolve s v).1.cbRuns = s.cbRuns ∧
     (s.hasCallback = true →
       (PState.Resolve s v).1.posted = s.posted + 1 ∧
       (PState.executorRunOne (PState.Resolve s v).1).status =
         PromiseStatus.fulfilled ∧
       (PState.executorRunOne (PState.Resolve s v).1).cbRuns =
         s.cbRuns + 1)) ∧
    ((PState.Reject s e).1.status = PromiseStatus.preRejected ∧
     (PState.Reject s e).1.cbRuns = s.cbRuns ∧
     (s.hasCallback = true →
       (PState.Reject s e).1.posted = s.posted + 1 ∧
       (PState.executorRunOne (PState.Reject s e).1).status =
         PromiseStatus.rejected ∧
       (PState.executorRunOne (PState.Reject s e).1).cbRuns =
         s.cbRuns + 1)) := by
  have hg : PromiseStatusMachine.IsEmpty s.status = true := by
    simp [PromiseStatusMachine.IsEmpty, hinit]
  constructor
  · simp only [PState.Resolve, hg, if_true]
    by_cases hcb : s.hasCallback = true
    · simp [PState.tryInvokeCallback, PState.runInExecutor,
        PromiseStatusMachine.IsPending, hcb, hexec,
        PState.executorRunOne, PState.runTrampoline]
    · simp [PState.tryInvokeCallback, PState.runInExecutor,
        PromiseStatusMachine.IsPending, hcb, hexec]
  · simp only [PState.Reject, hg, if_true]
    by_cases hcb : s.hasCallback = true
    · simp [PState.tryInvokeCallback, PState.runInExecutor,
        PromiseStatusMachine.IsPending, hcb, hexec,
        PState.executorRunOne, PState.runTrampoline]
    · simp [PState.tryInvokeCallback, PState.runInExecutor,
        PromiseStatusMachine.IsPending, hcb, hexec]

/-- Witness for C3 (amended) at a concrete state. -/
theorem C3_terminal_only_in_executor_witness :
    (⟨PromiseStatus.init, none, true, true, false, 0, 0⟩ :
        PState Nat).status = PromiseStatus.init ∧
    (⟨PromiseStatus.init, none, true, true, false, 0, 0⟩ :
        PState Nat).hasExecutor = true ∧
    (PState.Resolve (⟨PromiseStatus.init, none, true, true, false, 0, 0⟩ :
        PState Nat) 5).1.status = PromiseStatus.preFulfilled := by
  refine ⟨rfl, rfl, ?_⟩
  exact (C3_terminal_only_in_executor
    (⟨PromiseStatus.init, none, true, true, false, 0, 0⟩ : PState Nat)
    5 emptyError rfl rfl).1.1

/-! ### Cancellation (claim C4) -/

lemma mapWithIndex_get? (f : Nat → ChainNode → ChainNode) :
    ∀ (l : List ChainNode) (k j : Nat),
      (mapWithIndex f k l).get? j = (l.get? j).map (f (k + j)) := by
  intro l
  induction l with
  | nil => intro k j; simp [mapWithIndex]
  | cons n rest ih =>
      intro k j
      cases j with
      | zero => simp [mapWithIndex]
      | succ j =>
          simp only [mapWithIndex, List.get?]
          rw [ih (k + 1) j]
          have harith : k + 1 + j = k + (j + 1) := by omega
          rw [harith]

lemma cancelOne_idem (n : ChainNode) :
    n.cancelOne.cancelOne = n.cancelOne := by
  obtain ⟨st, a, b, c⟩ := n
  cases st <;> simp [ChainNode.cancelOne, PromiseStatusMachine.IsEmpty,
    PromiseStatusMachine.IsPending, PromiseStatusMachine.ToCancelled]

/-- C4, counterexample: the claim says `Cancel()` on a promise walks the
chain forward and cancels every `init`/pre state in it; but
`Promise<T>::Cancel` dispatches to the non-virtual
`PromiseState<T>::Cancel`, which touches only the promise's own state —
in a two-state chain with both states `kInit`, cancelling the first
leaves the second untouched in `kInit`. -/
theorem C4_counterexample :
    (promiseCancel [⟨PromiseStatus.init, true, false, false⟩,
        ⟨PromiseStatus.init, true, false, false⟩] 0).get? 1 =
      some ⟨PromiseStatus.init, true, false, false⟩ ∧
    ¬((promiseCancel [⟨PromiseStatus.init, true, false, false⟩,
        ⟨PromiseStatus.init, true, false, false⟩] 0).get? 1 =
      some ⟨PromiseStatus.cancelled, false, false, false⟩) ∧
    (promiseCancel [⟨PromiseStatus.init, true, false, false⟩,
        ⟨PromiseStatus.init, true, false, false⟩] 0).get? 0 =
      some ⟨PromiseStatus.cancelled, false, false, false⟩ := by
  decide

/-- C4, amended: `Promise<T>::Cancel` cancels only its own state: that
state, when `kInit` or pending, moves to `kCancelled` with its callback,
storage and coroutine handle released, a terminal (`fulfilled`/`rejected`)
or already-cancelled state is left unchanged, every other chain member is
untouched, and cancelling again has no further effect.  The chain-walking
cancel exists separately as `PromiseStateBase::Cancel`, which transitions
every `init`/pre state from the given one forward to `kCancelled`
(releasing nothing) and leaves earlier and terminal states unchanged. -/
theorem C4_cancel_only_own_state (ch : List ChainNode) (i j : Nat)
    (n : ChainNode) (hj : j ≠ i) :
    ((promiseCancel ch i).get? i = (ch.get? i).map ChainNode.cancelOne) ∧
    ((promiseCancel ch i).get? j = ch.get? j) ∧
    (PromiseStatusMachine.IsEmpty n.status ∨
        PromiseStatusMachine.IsPending n.status →
      n.cancelOne = ⟨PromiseStatus.cancelled, false, false, false⟩) ∧
    (terminalSet n.status = true → n.cancelOne = n) ∧
    (promiseCancel (promiseCancel ch i) i = promiseCancel ch i) ∧
    (∀ k, i ≤ k → (baseCancel ch i).get? k = (ch.get? k).map
      (fun nd =>
        { nd with status := (PromiseStatusMachine.ToCancelled nd.status).2 })) ∧
    (∀ k, k < i → (baseCancel ch i).get? k = ch.get? k) := by
  refine ⟨?_, ?_, ?_, ?_, ?_, ?_, ?_⟩
  · rw [promiseCancel, mapWithIndex_get?]
    simp
  · rw [promiseCancel, mapWithIndex_get?]
    cases h : ch.get? j with
    | none => rfl
    | some nd => simp [hj]
  · intro h
    have hst : n.status = PromiseStatus.init ∨
        n.status = PromiseStatus.preRejected ∨
        n.status = PromiseStatus.preFulfilled := by
      rcases h with h | h
      · simp [PromiseStatusMachine.IsEmpty] at h
        exact Or.inl h
      · simp [PromiseStatusMachine.IsPending] at h
        tauto
    rcases hst with h' | h' | h' <;>
      simp [ChainNode.cancelOne, h', PromiseStatusMachine.IsEmpty,
        PromiseStatusMachine.IsPending, PromiseStatusMachine.ToCancelled]
  · intro hterm
    obtain ⟨st, a, b, c⟩ := n
    simp only [terminalSet, decide_eq_true_eq] at hterm
    rcases hterm with h | h | h <;> subst h <;>
      simp [ChainNode.cancelOne, PromiseStatusMachine.IsEmpty,
        PromiseStatusMachine.IsPending]
  · apply List.ext_get?
    intro k
    rw [promiseCancel, promiseCancel, mapWithIndex_get?, mapWithIndex_get?]
    cases h : ch.get? k with
    | none => rfl
    | some nd =>
        by_cases hk : k = i
        · simp [hk, cancelOne_idem]
        · simp [hk, Nat.zero_add]
  · intro k hk
    rw [baseCancel, mapWithIndex_get?]
    cases h : ch.get? k with
    | none => rfl
    | some nd => simp [hk]
  · intro k hk
    rw [baseCancel, mapWithIndex_get?]
    cases h : ch.get? k with
    | none => rfl
    | some nd => simp [Nat.not_le.mpr hk]

/-- Witness for C4 (amended) at a concrete chain: cancelling the first
of two `kInit` nodes releases that node's resources and leaves the
second untouched. -/
theorem C4_cancel_only_own_state_witness :
    (1 ≠ 0) ∧
    ((⟨PromiseStatus.init, true, false, false⟩ : ChainNode).cancelOne =
      ⟨PromiseStatus.cancelled, false, false, false⟩) ∧
    (promiseCancel [⟨PromiseStatus.init, true, false, false⟩,
        ⟨PromiseStatus.init, true, false, false⟩] 0).get? 1 =
      [⟨PromiseStatus.init, true, false, false⟩,
        (⟨PromiseStatus.init, true, false, false⟩ : ChainNode)].get? 1 := by
  have h := C4_cancel_only_own_state
    [⟨PromiseStatus.init, true, false, false⟩,
      ⟨PromiseStatus.init, true, false, false⟩] 0 1
    ⟨PromiseStatus.init, true, false, false⟩ (by decide)
  exact ⟨by decide, h.2.2.1 (by decide), h.2.1⟩

/-! ### Combinators on empty input (claim C5) -/

/-- C5: on empty input, `MkAllPromise` returns a promise resolved with
the empty vector (pre-fulfilled, satisfied, nothing pending in an
executor yet), `MkAnyPromise` and `MkAnyPromiseAttachContainer` return a
promise rejected with `Err(kErrorEventPromiseAny, "no promise")`, and
`MkRacePromise` returns a promise rejected with
`Err(kErrorEventPromiseRace, "no promise")` — but
`MkRacePromiseAttachContainer` builds that rejected promise without
returning it (missing `return`), falls through to the attachment path
over the empty container, and hands back a promise that is still `kInit`
with no stored outcome and is never settled. -/
theorem C5_combinator_empty_behavior :
    (mkAllPromise ([] : List (PState Nat)) =
        .immediate (mkResolvedPromise []) ∧
      (mkResolvedPromise ([] : List Nat)).status =
        PromiseStatus.preFulfilled ∧
      (mkResolvedPromise ([] : List Nat)).storage = some (Res.ok []) ∧
      PromiseStatusMachine.IsSatisfied
        (mkResolvedPromise ([] : List Nat)).status = true) ∧
    (mkAnyPromise ([] : List (PState Nat)) =
        .immediate (mkRejectedPromise Nat
          (Err .kErrorEventPromiseAny "no promise")) ∧
      mkAnyPromiseAttachContainer ([] : List (PState Nat)) =
        .immediate (mkRejectedPromise Nat
          (Err .kErrorEventPromiseAny "no promise")) ∧
      (mkRejectedPromise Nat
          (Err .kErrorEventPromiseAny "no promise")).status =
        PromiseStatus.preRejected ∧
      (mkRejectedPromise Nat
          (Err .kErrorEventPromiseAny "no promise")).storage =
        some (Res.error ⟨some ErrorCategory.eventCat, 0,
          some "no promise"⟩)) ∧
    (mkRacePromise ([] : List (PState Nat)) =
        .immediate (mkRejectedPromise Nat
          (Err .kErrorEventPromiseRace "no promise")) ∧
      (mkRejectedPromise Nat
          (Err .kErrorEventPromiseRace "no promise")).status =
        PromiseStatus.preRejected ∧
      (mkRejectedPromise Nat
          (Err .kErrorEventPromiseRace "no promise")).storage =
        some (Res.error ⟨some ErrorCategory.eventCat, 1,
          some "no promise"⟩)) ∧
    (mkRacePromiseAttachContainer ([] : List (PState Nat)) =
        .immediate (initPState Nat) ∧
      (initPState Nat).status = PromiseStatus.init ∧
      (initPState Nat).storage = none ∧
      ¬(initPState Nat).status = PromiseStatus.preRejected) := by
  decide

/-! ### The coroutine awaiter (claim C8) -/

/-- C8: `await_ready` (for `PromiseAwaiter<T>` and the `Notifier`
awaiter alike) is true exactly when the awaited promise's status is
pre-settled; a promise that is `kInit` — or already terminal
`kFulfilled`/`kRejected` — reports not-ready, so the coroutine
suspends. -/
theorem C8_await_ready_iff_pending {α : Type} (s : PState α)
    (t : PState Unit)
    (hs : s.status = PromiseStatus.init ∨
      s.status = PromiseStatus.fulfilled ∨
      s.status = PromiseStatus.rejected ∨
      s.status = PromiseStatus.cancelled) :
    (awaitReady s = true ↔
      (s.status = PromiseStatus.preFulfilled ∨
        s.status = PromiseStatus.preRejected)) ∧
    (notifierAwaitReady t = true ↔
      (t.status = PromiseStatus.preFulfilled ∨
        t.status = PromiseStatus.preRejected)) ∧
    awaitReady s = false := by
  refine ⟨?_, ?_, ?_⟩
  · simp [awaitReady, PromiseStatusMachine.IsPending]
    tauto
  · simp [notifierAwaitReady, awaitReady, PromiseStatusMachine.IsPending]
    tauto
  · rcases hs with h | h | h | h <;>
      simp [awaitReady, PromiseStatusMachine.IsPending, h]

/-- Witness for C8 at concrete states. -/
theorem C8_await_ready_iff_pending_witness :
    ((⟨PromiseStatus.fulfilled, none, false, false, false, 0, 0⟩ :
        PState Nat).status = PromiseStatus.init ∨
      (⟨PromiseStatus.fulfilled, none, false, false, false, 0, 0⟩ :
        PState Nat).status = PromiseStatus.fulfilled ∨
      (⟨PromiseStatus.fulfilled, none, false, false, false, 0, 0⟩ :
        PState Nat).status = PromiseStatus.rejected ∨
      (⟨PromiseStatus.fulfilled, none, false, false, false, 0, 0⟩ :
        PState Nat).status = PromiseStatus.cancelled) ∧
    awaitReady (⟨PromiseStatus.fulfilled, none, false, false, false, 0, 0⟩ :
      PState Nat) = false := by
  refine ⟨by decide, ?_⟩
  exact (C8_await_ready_iff_pending
    (⟨PromiseStatus.fulfilled, none, false, false, false, 0, 0⟩ : PState Nat)
    (⟨PromiseStatus.init, none, false, false, false, 0, 0⟩ : PState Unit)
    (by decide)).2.2

/-! ### The expired resolver (claim C9) -/

/-- C9: every operation through an expired `PromiseResolver` (the weak
pointer no longer locks) is a harmless no-op: `Resolve`, `Reject` and
`Set` return `false` and settle nothing, `Cancel` does nothing, the five
status queries return the empty optional, and `IsExpired` returns
`true`. -/
theorem C9_expired_resolver_noop {α : Type} (v : α) (e : Error)
    (res : Res α) :
    Resolver.Resolve (none : Resolver α) v = (none, false) ∧
    Resolver.Reject (none : Resolver α) e = (none, false) ∧
    Resolver.Set (none : Resolver α) res = (none, false) ∧
    Resolver.Cancel (none : Resolver α) = none ∧
    Resolver.IsDone (none : Resolver α) = none ∧
    Resolver.IsEmpty (none : Resolver α) = none ∧
    Resolver.IsSettled (none : Resolver α) = none ∧
    Resolver.IsSatisfied (none : Resolver α) = none ∧
    Resolver.IsUnsatisfied (none : Resolver α) = none ∧
    Resolver.IsExpired (none : Resolver α) = true := by
  refine ⟨rfl, rfl, ?_, rfl, rfl, rfl, rfl, rfl, rfl, rfl⟩
  cases res <;> rfl

/-! ### MkBoostError (claim C10) -/

/-- C10: `Error::MkBoostError(0, m)` discards the message and returns the
default empty error — null category, code 0, no message, converting to
`false` — while for any nonzero code `c` it returns the boost-categorized
error with code `c` and message `m`. -/
theorem C10_mkBoostError (m : String) (c : Int) (hc : c ≠ 0) :
    Error.mkBoostError 0 m = emptyError ∧
    (Error.mkBoostError 0 m).category = none ∧
    (Error.mkBoostError 0 m).code = 0 ∧
    (Error.mkBoostError 0 m).message = none ∧
    (Error.mkBoostError 0 m).has = false ∧
    (Error.mkBoostError c m).category = some ErrorCategory.boost ∧
    (Error.mkBoostError c m).code = c ∧
    (Error.mkBoostError c m).message = some m ∧
    (Error.mkBoostError c m).has = true := by
  simp [Error.mkBoostError, hc, emptyError, Error.has]

/-- Witness for C10 at a concrete code and message. -/
theorem C10_mkBoostError_witness :
    (5 : Int) ≠ 0 ∧
    Error.mkBoostError 0 "disk full" = emptyError ∧
    (Error.mkBoostError 5 "disk full").code = 5 := by
  refine ⟨by decide, (C10_mkBoostError "disk full" 5 (by decide)).1, ?_⟩
  exact (C10_mkBoostError "disk full" 5 (by decide)).2.2.2.2.2.2.1

/-! ### Timer wheel: arithmetic of the level walk -/

lemma shiftRight_div (a k : Nat) : a >>> k = a / 2 ^ k :=
  Nat.shiftRight_eq_div_pow a k

lemma div_level_add (a k j : Nat) :
    a / 2 ^ (8 * k) / 2 ^ (8 * j) = a / 2 ^ (8 * (k + j)) := by
  rw [Nat.div_div_eq_div_mul, ← pow_add, Nat.mul_add]

lemma div_level_succ (a k : Nat) :
    a / 2 ^ (8 * (k + 1)) = a / 2 ^ (8 * k) / 256 := by
  have h := div_level_add a k 1
  rw [← h]
  norm_num

lemma div256_sub (A B : Nat) (h : B ≤ A) :
    (A - B + B % 256) / 256 = A / 256 - B / 256 := by
  omega

/-- One iteration of the level walk folds the phase of the current level
in and moves the residual delta one level up. -/
lemma dAt_fold (now sa k : Nat) (h : now / 2 ^ (8 * k) ≤ sa / 2 ^ (8 * k)) :
    (dAt now sa k + now / 2 ^ (8 * k) % 256) / 256 = dAt now sa (k + 1) := by
  rw [dAt, dAt, div256_sub _ _ h, div_level_succ, div_level_succ]

lemma dAt_zero (now delta : Nat) : dAt now (now + delta) 0 = delta := by
  simp [dAt]

/-- Unfolding equations for `walkF`, with the phase written as a
division. -/
lemma walkF_step (now fuel delta level : Nat) (h : 256 ≤ delta) :
    walkF now (fuel + 1) delta level =
      walkF now fuel ((delta + now / 2 ^ (8 * level) % 256) / 256)
        (level + 1) := by
  simp only [walkF, if_pos h, shiftRight_div]
  norm_num

lemma walkF_stop (now fuel delta level : Nat) (h : ¬256 ≤ delta) :
    walkF now (fuel + 1) delta level = (level, delta) := by
  simp [walkF, h]

/-- Characterization of the fuel-indexed level walk: starting at `level`
with the true residual `dAt`, it stops at the first level whose residual
drops below 256, and that residual is in `[1, 255]`. -/
lemma walkF_spec (now sa : Nat) :
    ∀ (fuel delta level : Nat), delta = dAt now sa level → 1 ≤ delta →
      delta ≤ fuel →
      ∃ L, walkF now fuel delta level = (L, dAt now sa L) ∧ level ≤ L ∧
        1 ≤ dAt now sa L ∧ dAt now sa L ≤ 255 ∧
        ∀ k, level ≤ k → k < L → 256 ≤ dAt now sa k := by
  intro fuel
  induction fuel with
  | zero => intro delta level _ h1 hf; omega
  | succ fuel ih =>
      intro delta level hd h1 hf
      by_cases hbig : 256 ≤ delta
      · have hle : now / 2 ^ (8 * level) ≤ sa / 2 ^ (8 * level) := by
          have : 1 ≤ sa / 2 ^ (8 * level) - now / 2 ^ (8 * level) := by
            rw [← dAt, ← hd]; exact h1
          omega
        have hfold : (delta + now / 2 ^ (8 * level) % 256) / 256 =
            dAt now sa (level + 1) := by
          rw [hd]; exact dAt_fold now sa level hle
        have hnext1 : 1 ≤ (delta + now / 2 ^ (8 * level) % 256) / 256 := by
          omega
        have hdec : (delta + now / 2 ^ (8 * level) % 256) / 256 < delta := by
          omega
        obtain ⟨L, heq, hlev, hb1, hb255, hmin⟩ :=
          ih ((delta + now / 2 ^ (8 * level) % 256) / 256) (level + 1)
            hfold hnext1 (by omega)
        refine ⟨L, ?_, by omega, hb1, hb255, ?_⟩
        · rw [walkF_step now fuel delta level hbig]; exact heq
        · intro k hk1 hk2
          rcases Nat.eq_or_lt_of_le hk1 with h | h
          · rw [← h, ← hd]; exact hbig
          · exact hmin k h hk2
      · refine ⟨level, ?_, le_refl level, by omega, by omega,
          fun k hk1 hk2 => absurd (lt_of_le_of_lt hk1 hk2) (lt_irrefl level)⟩
        rw [walkF_stop now fuel delta level hbig, hd]

/-- `Schedule` characterized: for a positive delta whose level-7 residual
fits in a slot offset (true whenever `now + delta < 2^64`, and for every
in-wheel re-schedule), the event is inserted exactly once, at a level
`L ≤ 7`, into the slot addressed by its own tick, with residual in
`[1, 255]`. -/
lemma Schedule_spec (w : TimerWheel) (id delta : Nat) (h1 : 1 ≤ delta)
    (h7 : dAt w.now (w.now + delta) 7 ≤ 255) :
    ∃ L, L ≤ 7 ∧ 1 ≤ dAt w.now (w.now + delta) L ∧
      dAt w.now (w.now + delta) L ≤ 255 ∧
      (Schedule w id delta).slots = slotInsert w.slots L
        ((w.now + delta) / 2 ^ (8 * L) % 256) ⟨id, w.now + delta⟩ := by
  obtain ⟨L, heq, _, hb1, hb255, hmin⟩ :=
    walkF_spec w.now (w.now + delta) delta delta 0
      (by rw [dAt_zero]) h1 (le_refl delta)
  have hL7 : L ≤ 7 := by
    by_contra hgt
    have := hmin 7 (Nat.zero_le 7) (by omega)
    omega
  refine ⟨L, hL7, hb1, hb255, ?_⟩
  have hwalk : walk w.now delta = (L, dAt w.now (w.now + delta) L) := heq
  have hle : w.now / 2 ^ (8 * L) ≤ (w.now + delta) / 2 ^ (8 * L) :=
    Nat.div_le_div_right (Nat.le_add_right w.now delta)
  have hidx : w.now / 2 ^ (8 * L) + dAt w.now (w.now + delta) L =
      (w.now + delta) / 2 ^ (8 * L) := by
    rw [dAt]; omega
  simp only [Schedule, hwalk, shiftRight_div]
  rw [hidx]

lemma Schedule_now (w : TimerWheel) (id delta : Nat) :
    (Schedule w id delta).now = w.now := rfl

lemma Schedule_ticksPending (w : TimerWheel) (id delta : Nat) :
    (Schedule w id delta).ticksPending = w.ticksPending := rfl

lemma Schedule_log (w : TimerWheel) (id delta : Nat) :
    (Schedule w id delta).log = w.log := rfl

lemma walkF_level_le (now : Nat) :
    ∀ (fuel delta level : Nat), level ≤ (walkF now fuel delta level).1 := by
  intro fuel
  induction fuel with
  | zero => intro delta level; exact le_refl level
  | succ fuel ih =>
      intro delta level
      by_cases h : 256 ≤ delta
      · have := ih ((delta + (now >>> (8 * level)) % 256) >>> 8) (level + 1)
        simp only [walkF, if_pos h]
        omega
      · simp [walkF, h]

/-- C6: for every delta `D > 0`, `Schedule(event, D)` sets the event's
`scheduled_at` to `now_[0] + D` and links it (at the head, nothing else
moving) into `slots_[level][(now_[level] + D') & kMask]` where
`(level, D')` is the result of the level walk; a delta below `2^8` lands
on level 0 and a delta of at least `2^8` lands on level 1 or higher. -/
theorem C6_schedule_placement (w : TimerWheel) (id D : Nat) (hD : 0 < D) :
    ((Schedule w id D).slots (walk w.now D).1
        ((w.now >>> (8 * (walk w.now D).1) + (walk w.now D).2) % 256) =
      (⟨id, w.now + D⟩ : TimerEvent) ::
        w.slots (walk w.now D).1
          ((w.now >>> (8 * (walk w.now D).1) + (walk w.now D).2) % 256)) ∧
    (∀ ℓ s, ¬(ℓ = (walk w.now D).1 ∧
        s = (w.now >>> (8 * (walk w.now D).1) + (walk w.now D).2) % 256) →
      (Schedule w id D).slots ℓ s = w.slots ℓ s) ∧
    (D < 256 → (walk w.now D).1 = 0) ∧
    (256 ≤ D → 1 ≤ (walk w.now D).1) := by
  refine ⟨?_, ?_, ?_, ?_⟩
  · simp [Schedule, slotInsert, slotSet]
  · intro ℓ s hne
    simp only [Schedule, slotInsert, slotSet]
    rw [if_neg hne]
  · intro hlt
    obtain ⟨d, rfl⟩ : ∃ d, D = d + 1 := ⟨D - 1, by omega⟩
    rw [walk, walkF_stop _ _ _ _ (by omega)]
  · intro hge
    obtain ⟨d, rfl⟩ : ∃ d, D = d + 1 := ⟨D - 1, by omega⟩
    rw [walk, walkF_step _ _ _ _ hge]
    exact walkF_level_le w.now d _ (0 + 1)

/-- Witness for C6 at a concrete wheel and deltas. -/
theorem C6_schedule_placement_witness :
    (0 < 300 ∧ 256 ≤ 300 ∧ 0 < 10 ∧ 10 < 256) ∧
    1 ≤ (walk (mkTimerWheel 0).now 300).1 ∧
    (walk (mkTimerWheel 7).now 10).1 = 0 := by
  refine ⟨by decide, ?_, ?_⟩
  · exact (C6_schedule_placement (mkTimerWheel 0) 1 300
      (by decide)).2.2.2 (by decide)
  · exact (C6_schedule_placement (mkTimerWheel 7) 1 10
      (by decide)).2.2.1 (by decide)

/-! ### Timer wheel: counting linked events -/

lemma sum_point_congr {N i : Nat} (hi : i < N) (f g : Nat → Nat)
    (hoff : ∀ j, j ≠ i → f j = g j) :
    ∑ j ∈ Finset.range N, f j + g i = ∑ j ∈ Finset.range N, g j + f i := by
  have hmem : i ∈ Finset.range N := Finset.mem_range.mpr hi
  rw [← Finset.add_sum_erase _ f hmem, ← Finset.add_sum_erase _ g hmem]
  have herase : ∑ j ∈ (Finset.range N).erase i, f j =
      ∑ j ∈ (Finset.range N).erase i, g j :=
    Finset.sum_congr rfl (fun j hj => hoff j (Finset.ne_of_mem_erase hj))
  omega

lemma wheelCount_slots_only (now tp now' tp' : Nat)
    (sl : Nat → Nat → List TimerEvent) (lg lg' : List TimerEvent)
    (e : TimerEvent) :
    wheelCount ⟨now, tp, sl, lg⟩ e = wheelCount ⟨now', tp', sl, lg'⟩ e := rfl

lemma wheelCount_slotSet (w : TimerWheel) (ℓ s : Nat)
    (l : List TimerEvent) (hℓ : ℓ < 8) (hs : s < 256) (e : TimerEvent) :
    wheelCount { w with slots := slotSet w.slots ℓ s l } e +
        (w.slots ℓ s).count e =
      wheelCount w e + l.count e := by
  have hsl : slotSet w.slots ℓ s l ℓ s = l := by simp [slotSet]
  have hcell : ∀ s', s' ≠ s →
      (fun s' => (slotSet w.slots ℓ s l ℓ s').count e) s' =
      (fun s' => (w.slots ℓ s').count e) s' := by
    intro s' hs'
    simp [slotSet, hs']
  have hinner := sum_point_congr hs
    (fun s' => (slotSet w.slots ℓ s l ℓ s').count e)
    (fun s' => (w.slots ℓ s').count e) hcell
  simp only [hsl] at hinner
  have hrow : ∀ k, k ≠ ℓ →
      (fun k => ∑ s' ∈ Finset.range 256,
        (slotSet w.slots ℓ s l k s').count e) k =
      (fun k => ∑ s' ∈ Finset.range 256, (w.slots k s').count e) k := by
    intro k hk
    refine Finset.sum_congr rfl (fun s' _ => ?_)
    simp [slotSet, hk]
  have houter := sum_point_congr hℓ
    (fun k => ∑ s' ∈ Finset.range 256, (slotSet w.slots ℓ s l k s').count e)
    (fun k => ∑ s' ∈ Finset.range 256, (w.slots k s').count e) hrow
  simp only at hinner houter
  simp only [wheelCount]
  omega

lemma wheelSize_slotSet (w : TimerWheel) (ℓ s : Nat)
    (l : List TimerEvent) (hℓ : ℓ < 8) (hs : s < 256) :
    wheelSize { w with slots := slotSet w.slots ℓ s l } +
        (w.slots ℓ s).length =
      wheelSize w + l.length := by
  have hsl : slotSet w.slots ℓ s l ℓ s = l := by simp [slotSet]
  have hcell : ∀ s', s' ≠ s →
      (fun s' => (slotSet w.slots ℓ s l ℓ s').length) s' =
      (fun s' => (w.slots ℓ s').length) s' := by
    intro s' hs'
    simp [slotSet, hs']
  have hinner := sum_point_congr hs
    (fun s' => (slotSet w.slots ℓ s l ℓ s').length)
    (fun s' => (w.slots ℓ s').length) hcell
  simp only [hsl] at hinner
  have hrow : ∀ k, k ≠ ℓ →
      (fun k => ∑ s' ∈ Finset.range 256,
        (slotSet w.slots ℓ s l k s').length) k =
      (fun k => ∑ s' ∈ Finset.range 256, (w.slots k s').length) k := by
    intro k hk
    refine Finset.sum_congr rfl (fun s' _ => ?_)
    simp [slotSet, hk]
  have houter := sum_point_congr hℓ
    (fun k => ∑ s' ∈ Finset.range 256, (slotSet w.slots ℓ s l k s').length)
    (fun k => ∑ s' ∈ Finset.range 256, (w.slots k s').length) hrow
  simp only at hinner houter
  simp only [wheelSize]
  omega

lemma single_le_range_sum (g : Nat → Nat) (N i : Nat) (hi : i < N) :
    g i ≤ ∑ j ∈ Finset.range N, g j :=
  Finset.single_le_sum (fun _ _ => Nat.zero_le _) (Finset.mem_range.mpr hi)

lemma slot_length_le_wheelSize (w : TimerWheel) (ℓ s : Nat)
    (hℓ : ℓ < 8) (hs : s < 256) :
    (w.slots ℓ s).length ≤ wheelSize w := by
  have h1 := single_le_range_sum (fun s' => (w.slots ℓ s').length) 256 s hs
  have h2 := single_le_range_sum
    (fun k => ∑ s' ∈ Finset.range 256, (w.slots k s').length) 8 ℓ hℓ
  simp only at h1 h2
  simp only [wheelSize]
  omega

lemma wheelCount_zero_of_not_mem (w : TimerWheel) (e : TimerEvent)
    (h : ∀ ℓ s, ¬e ∈ w.slots ℓ s) : wheelCount w e = 0 := by
  refine Finset.sum_eq_zero (fun ℓ _ => Finset.sum_eq_zero (fun s _ => ?_))
  exact List.count_eq_zero.mpr (h ℓ s)

lemma wheelCount_ext (w w' : TimerWheel) (h : w.slots = w'.slots)
    (e : TimerEvent) : wheelCount w e = wheelCount w' e := by
  unfold wheelCount
  rw [h]

lemma wheelSize_ext (w w' : TimerWheel) (h : w.slots = w'.slots) :
    wheelSize w = wheelSize w' := by
  unfold wheelSize
  rw [h]

/-! ### Timer wheel: the tick arithmetic -/

lemma pow_level_succ (k : Nat) : 2 ^ (8 * (k + 1)) = 2 ^ (8 * k) * 256 := by
  rw [Nat.mul_succ, pow_add]
  norm_num

lemma dueSlot_lt (n ℓ : Nat) : dueSlot n ℓ < 256 :=
  Nat.mod_lt _ (by norm_num)

/-- The cascade guard of `ProcessCurrentSlot`: at a level whose counter
just reached a multiple of its unit, `slot_index == 0` says exactly that
the next level's unit also divides the clock. -/
lemma cascade_guard (n ℓ : Nat) (h : 2 ^ (8 * ℓ) ∣ n) :
    n / 2 ^ (8 * ℓ) % 256 = 0 ↔ 2 ^ (8 * (ℓ + 1)) ∣ n := by
  obtain ⟨q, rfl⟩ := h
  have hpos : 0 < 2 ^ (8 * ℓ) := pow_pos (by norm_num) _
  rw [Nat.mul_div_cancel_left q hpos, pow_level_succ]
  constructor
  · intro h0
    exact Nat.mul_dvd_mul_left _ (Nat.dvd_of_mod_eq_zero h0)
  · intro hdvd
    exact Nat.mod_eq_zero_of_dvd ((Nat.mul_dvd_mul_iff_left hpos).mp hdvd)

lemma succ_div_of_dvd (n Q : Nat) (h : Q ∣ n + 1) :
    (n + 1) / Q = n / Q + 1 := by
  rw [Nat.succ_div, if_pos h]

lemma succ_div_of_not_dvd (n Q : Nat) (h : ¬Q ∣ n + 1) :
    (n + 1) / Q = n / Q := by
  rw [Nat.succ_div, if_neg h, Nat.add_zero]

lemma le_of_div_eq_of_dvd (n sa Q : Nat) (hdvd : Q ∣ n)
    (_hQ : 0 < Q) (h : sa / Q = n / Q) : n ≤ sa := by
  have h1 : n / Q * Q = n := Nat.div_mul_cancel hdvd
  have h2 : sa / Q * Q ≤ sa := Nat.div_mul_le_self sa Q
  rw [h] at h2
  omega

/-- An event placed with a level residual in `[1, 255]` never sits in the
slot its level is currently pointing at. -/
lemma placed_not_due (n sa L : Nat) (h1 : 1 ≤ dAt n sa L)
    (h255 : dAt n sa L ≤ 255) :
    ¬sa / 2 ^ (8 * L) % 256 = dueSlot n L := by
  unfold dAt at h1 h255
  unfold dueSlot
  omega

/-! ### Timer wheel: draining one due slot -/

/-- Draining the due slot of level `ℓ` during tick `n` (`2^(8ℓ) ∣ n`):
every event found there is exactly due in level units; the ones whose
tick is `n` are executed in pop order, the rest are re-scheduled at their
residual delta onto a correctly-placed slot; the slot ends empty, the
budget never runs out when it exceeds the slot population, events are
conserved between wheel and log, and the wheel never grows. -/
lemma drainLoop_spec (n ℓ : Nat) (_hdvd : 2 ^ (8 * ℓ) ∣ n) (hℓ7 : ℓ ≤ 7) :
    ∀ (fuel : Nat) (w : TimerWheel) (m : Nat),
      w.now = n →
      (w.slots ℓ (dueSlot n ℓ)).length ≤ fuel →
      (w.slots ℓ (dueSlot n ℓ)).length < m →
      (∀ e ∈ w.slots ℓ (dueSlot n ℓ),
        e.scheduledAt / 2 ^ (8 * ℓ) = n / 2 ^ (8 * ℓ) ∧ n ≤ e.scheduledAt) →
      (∀ k s e, ¬(k = ℓ ∧ s = dueSlot n ℓ) → e ∈ w.slots k s →
        k ≤ 7 ∧ s ≤ 255 ∧ SlotCond n ℓ k s e) →
      ∃ w' batch, drainLoop ℓ (dueSlot n ℓ) fuel w m = (w', true) ∧
        w'.now = n ∧ w'.ticksPending = w.ticksPending ∧
        w'.log = w.log ++ batch ∧ (∀ e ∈ batch, e.scheduledAt = n) ∧
        MidState n ℓ w' ∧
        (∀ ev, wheelCount w ev + w.log.count ev =
          wheelCount w' ev + w'.log.count ev) ∧
        wheelSize w' ≤ wheelSize w := by
  have hℓ8 : ℓ < 8 := by omega
  have hds : dueSlot n ℓ < 256 := dueSlot_lt n ℓ
  intro fuel
  induction fuel with
  | zero =>
      intro w m hnow hlen hm hdue hothers
      have hnil : w.slots ℓ (dueSlot n ℓ) = [] :=
        List.eq_nil_of_length_eq_zero (by omega)
      refine ⟨w, [], rfl, hnow, rfl, (List.append_nil _).symm, by simp,
        ⟨hnow, ?_⟩, fun ev => rfl, le_refl _⟩
      intro k s e he
      by_cases hpair : k = ℓ ∧ s = dueSlot n ℓ
      · rw [hpair.1, hpair.2, hnil] at he
        exact absurd he (List.not_mem_nil e)
      · exact hothers k s e hpair he
  | succ fuel ih =>
      intro w m hnow hlen hm hdue hothers
      cases hslot : w.slots ℓ (dueSlot n ℓ) with
      | nil =>
          have hstep : drainLoop ℓ (dueSlot n ℓ) (fuel + 1) w m =
              (w, true) := by
            simp [drainLoop, hslot]
          refine ⟨w, [], hstep, hnow, rfl, (List.append_nil _).symm, by simp,
            ⟨hnow, ?_⟩, fun ev => rfl, le_refl _⟩
          intro k s e he
          by_cases hpair : k = ℓ ∧ s = dueSlot n ℓ
          · rw [hpair.1, hpair.2, hslot] at he
            exact absurd he (List.not_mem_nil e)
          · exact hothers k s e hpair he
      | cons e₀ rest =>
          have hlen' : (w.slots ℓ (dueSlot n ℓ)).length = rest.length + 1 := by
            rw [hslot]; rfl
          have hdue₀ := hdue e₀
            (by rw [hslot]; exact List.mem_cons_self e₀ rest)
          have hw1slot :
              slotSet w.slots ℓ (dueSlot n ℓ) rest ℓ (dueSlot n ℓ) = rest := by
            simp [slotSet]
          have hw1other : ∀ k s, ¬(k = ℓ ∧ s = dueSlot n ℓ) →
              slotSet w.slots ℓ (dueSlot n ℓ) rest k s = w.slots k s := by
            intro k s h
            simp only [slotSet]
            rw [if_neg h]
          have hpopC : ∀ ev,
              wheelCount { w with
                  slots := slotSet w.slots ℓ (dueSlot n ℓ) rest } ev +
                (w.slots ℓ (dueSlot n ℓ)).count ev =
              wheelCount w ev + rest.count ev :=
            fun ev => wheelCount_slotSet w ℓ (dueSlot n ℓ) rest hℓ8 hds ev
          have hpopS :
              wheelSize { w with
                  slots := slotSet w.slots ℓ (dueSlot n ℓ) rest } +
                (w.slots ℓ (dueSlot n ℓ)).length =
              wheelSize w + rest.length :=
            wheelSize_slotSet w ℓ (dueSlot n ℓ) rest hℓ8 hds
          have hcntSlot : ∀ ev : TimerEvent,
              (w.slots ℓ (dueSlot n ℓ)).count ev =
                rest.count ev + (if ev = e₀ then 1 else 0) := by
            intro ev
            rw [hslot]
            by_cases hev : ev = e₀
            · subst hev; simp [List.count_cons]
            · simp [List.count_cons, hev]
          have hm0 : ¬(m - 1 = 0) := by omega
          -- the executed path, common to level 0 and to a due event found
          -- on an outer level
          have hexecCase : ∀ w2 : TimerWheel, e₀.scheduledAt = n →
              w2.now = n → w2.ticksPending = w.ticksPending →
              w2.slots = slotSet w.slots ℓ (dueSlot n ℓ) rest →
              w2.log = w.log ++ [e₀] →
              ∃ w' batch,
                drainLoop ℓ (dueSlot n ℓ) fuel w2 (m - 1) = (w', true) ∧
                w'.now = n ∧ w'.ticksPending = w.ticksPending ∧
                w'.log = w.log ++ batch ∧ (∀ e ∈ batch, e.scheduledAt = n) ∧
                MidState n ℓ w' ∧
                (∀ ev, wheelCount w ev + w.log.count ev =
                  wheelCount w' ev + w'.log.count ev) ∧
                wheelSize w' ≤ wheelSize w := by
            intro w2 hsa h2now h2tp h2slots h2log
            obtain ⟨w', batch', heq, hnow', htp', hlog', hbatch', hmid',
                hcons', hsize'⟩ :=
              ih w2 (m - 1) h2now
                (by rw [h2slots, hw1slot]; omega)
                (by rw [h2slots, hw1slot]; omega)
                (by
                  intro e he
                  rw [h2slots, hw1slot] at he
                  exact hdue e
                    (by rw [hslot]; exact List.mem_cons_of_mem e₀ he))
                (by
                  intro k s e hpair he
                  rw [h2slots, hw1other k s hpair] at he
                  exact hothers k s e hpair he)
            refine ⟨w', e₀ :: batch', heq, hnow', by rw [htp', h2tp], ?_, ?_,
              hmid', ?_, ?_⟩
            · rw [hlog', h2log]
              simp
            · intro e he
              rcases List.mem_cons.mp he with h | h
              · rw [h]; exact hsa
              · exact hbatch' e h
            · intro ev
              have h2 := hcons' ev
              have hc2 : wheelCount w2 ev = wheelCount { w with
                  slots := slotSet w.slots ℓ (dueSlot n ℓ) rest } ev :=
                wheelCount_ext _ _ h2slots ev
              have hc4 : (w2.log).count ev =
                  w.log.count ev + (if ev = e₀ then 1 else 0) := by
                rw [h2log]
                by_cases hev : ev = e₀
                · subst hev; simp
                · simp [hev]
              have h1 := hpopC ev
              have h5 := hcntSlot ev
              rw [hc2, hc4] at h2
              omega
            · have hs2 : wheelSize w2 = wheelSize { w with
                  slots := slotSet w.slots ℓ (dueSlot n ℓ) rest } :=
                wheelSize_ext _ _ h2slots
              rw [hs2] at hsize'
              omega
          by_cases hlev : 0 < ℓ
          · by_cases hexec : e₀.scheduledAt ≤ n
            · -- due now: execute
              have hsa : e₀.scheduledAt = n := by
                have := hdue₀.2; omega
              simp only [drainLoop, hslot]
              rw [hnow]
              simp only [if_pos hlev, if_pos hexec, if_neg hm0]
              exact hexecCase _ hsa rfl rfl rfl rfl
            · -- not yet due: re-schedule at the residual delta
              have hgt : n < e₀.scheduledAt := by omega
              have hschedCase : ∀ w1 : TimerWheel,
                  w1.now = n → w1.ticksPending = w.ticksPending →
                  w1.slots = slotSet w.slots ℓ (dueSlot n ℓ) rest →
                  w1.log = w.log →
                  ∃ w' batch,
                    drainLoop ℓ (dueSlot n ℓ) fuel
                      (Schedule w1 e₀.id (e₀.scheduledAt - n)) m =
                      (w', true) ∧
                    w'.now = n ∧ w'.ticksPending = w.ticksPending ∧
                    w'.log = w.log ++ batch ∧
                    (∀ e ∈ batch, e.scheduledAt = n) ∧
                    MidState n ℓ w' ∧
                    (∀ ev, wheelCount w ev + w.log.count ev =
                      wheelCount w' ev + w'.log.count ev) ∧
                    wheelSize w' ≤ wheelSize w := by
                intro w1 h1now h1tp h1slots h1log
                have hδ1 : 1 ≤ e₀.scheduledAt - n := by omega
                have hδsa : n + (e₀.scheduledAt - n) = e₀.scheduledAt := by
                  omega
                have hdiv7 : e₀.scheduledAt / 2 ^ (8 * 7) = n / 2 ^ (8 * 7) := by
                  have hstep := congrArg
                    (fun x => x / 2 ^ (8 * (7 - ℓ))) hdue₀.1
                  simp only at hstep
                  rw [div_level_add, div_level_add] at hstep
                  have h7ℓ : ℓ + (7 - ℓ) = 7 := by omega
                  rw [h7ℓ] at hstep
                  exact hstep
                have h7x : dAt w1.now (w1.now + (e₀.scheduledAt - n)) 7 ≤ 255 := by
                  rw [h1now, hδsa]
                  unfold dAt
                  omega
                obtain ⟨L, hL7, hb1, hb255, hsched⟩ :=
                  Schedule_spec w1 e₀.id (e₀.scheduledAt - n) hδ1 h7x
                rw [h1now, hδsa] at hb1 hb255 hsched
                have hL8 : L < 8 := by omega
                have hsIdx : e₀.scheduledAt / 2 ^ (8 * L) % 256 < 256 :=
                  Nat.mod_lt _ (by norm_num)
                have hLne : L ≠ ℓ := by
                  intro hLeq
                  rw [hLeq] at hb1
                  unfold dAt at hb1
                  omega
                have h3now : (Schedule w1 e₀.id (e₀.scheduledAt - n)).now = n := by
                  rw [Schedule_now]; exact h1now
                have h3tp : (Schedule w1 e₀.id (e₀.scheduledAt - n)).ticksPending =
                    w.ticksPending := by
                  rw [Schedule_ticksPending]; exact h1tp
                have h3log : (Schedule w1 e₀.id (e₀.scheduledAt - n)).log =
                    w.log := by
                  rw [Schedule_log]; exact h1log
                have hslotInsert :
                    slotInsert w1.slots L (e₀.scheduledAt / 2 ^ (8 * L) % 256)
                      ⟨e₀.id, e₀.scheduledAt⟩ =
                    slotSet w1.slots L (e₀.scheduledAt / 2 ^ (8 * L) % 256)
                      (e₀ :: w1.slots L (e₀.scheduledAt / 2 ^ (8 * L) % 256)) :=
                  rfl
                have h3slot_ds :
                    (Schedule w1 e₀.id (e₀.scheduledAt - n)).slots ℓ
                      (dueSlot n ℓ) = rest := by
                  rw [hsched, hslotInsert]
                  simp only [slotSet]
                  rw [if_neg (by
                    rintro ⟨hh1, _⟩
                    exact hLne hh1.symm)]
                  rw [h1slots, hw1slot]
                have hnotdue : ¬e₀.scheduledAt / 2 ^ (8 * L) % 256 =
                    dueSlot n L :=
                  placed_not_due n e₀.scheduledAt L hb1 hb255
                obtain ⟨w', batch', heq, hnow', htp', hlog', hbatch', hmid',
                    hcons', hsize'⟩ :=
                  ih (Schedule w1 e₀.id (e₀.scheduledAt - n)) m h3now
                    (by rw [h3slot_ds]; omega)
                    (by rw [h3slot_ds]; omega)
                    (by
                      intro e he
                      rw [h3slot_ds] at he
                      exact hdue e
                        (by rw [hslot]; exact List.mem_cons_of_mem e₀ he))
                    (by
                      intro k s e hpair he
                      rw [hsched, hslotInsert] at he
                      simp only [slotSet] at he
                      by_cases htgt : k = L ∧
                          s = e₀.scheduledAt / 2 ^ (8 * L) % 256
                      · rw [if_pos htgt] at he
                        rcases List.mem_cons.mp he with hcase | hcase
                        · subst hcase
                          refine ⟨by omega, by omega, ?_⟩
                          rw [htgt.1, htgt.2]
                          unfold SlotCond
                          rw [if_neg (by
                            rintro ⟨_, hh2⟩
                            exact hnotdue hh2)]
                          exact ⟨rfl, hb1, hb255⟩
                        · have hne : ¬(L = ℓ ∧
                              e₀.scheduledAt / 2 ^ (8 * L) % 256 =
                                dueSlot n ℓ) := by
                            rintro ⟨hh1, _⟩
                            exact hLne hh1
                          have := hothers L
                            (e₀.scheduledAt / 2 ^ (8 * L) % 256) e hne
                            (by
                              rw [← hw1other L
                                (e₀.scheduledAt / 2 ^ (8 * L) % 256) hne,
                                ← h1slots]
                              exact hcase)
                          rw [htgt.1, htgt.2]
                          exact this
                      · rw [if_neg htgt] at he
                        rw [h1slots, hw1other k s hpair] at he
                        exact hothers k s e hpair he)
                refine ⟨w', batch', heq, hnow', by rw [htp', h3tp], ?_,
                  hbatch', hmid', ?_, ?_⟩
                · rw [hlog', h3log]
                · intro ev
                  have h2 := hcons' ev
                  have hc1 : wheelCount w1 ev = wheelCount { w with
                      slots := slotSet w.slots ℓ (dueSlot n ℓ) rest } ev :=
                    wheelCount_ext _ _ h1slots ev
                  have hcins := wheelCount_slotSet w1 L
                    (e₀.scheduledAt / 2 ^ (8 * L) % 256)
                    (e₀ :: w1.slots L (e₀.scheduledAt / 2 ^ (8 * L) % 256))
                    hL8 hsIdx ev
                  have hc3 : wheelCount (Schedule w1 e₀.id
                      (e₀.scheduledAt - n)) ev =
                      wheelCount { w1 with
                        slots := slotSet w1.slots L (e₀.scheduledAt / 2 ^ (8 * L) % 256) (e₀ :: w1.slots L (e₀.scheduledAt / 2 ^ (8 * L) % 256)) } ev :=
                    wheelCount_ext _ _ (by rw [hsched, hslotInsert]) ev
                  have hccons : (e₀ :: w1.slots L
                      (e₀.scheduledAt / 2 ^ (8 * L) % 256)).count ev =
                      (w1.slots L (e₀.scheduledAt / 2 ^ (8 * L) % 256)).count
                        ev + (if ev = e₀ then 1 else 0) := by
                    by_cases hev : ev = e₀
                    · subst hev; simp [List.count_cons]
                    · simp [List.count_cons, hev]
                  have h1 := hpopC ev
                  have h5 := hcntSlot ev
                  have h3logc : (Schedule w1 e₀.id
                      (e₀.scheduledAt - n)).log.count ev =
                      w.log.count ev := by rw [h3log]
                  rw [hc3, h3logc] at h2
                  omega
                · have hs1 : wheelSize w1 = wheelSize { w with
                      slots := slotSet w.slots ℓ (dueSlot n ℓ) rest } :=
                    wheelSize_ext _ _ h1slots
                  have hsins := wheelSize_slotSet w1 L
                    (e₀.scheduledAt / 2 ^ (8 * L) % 256)
                    (e₀ :: w1.slots L (e₀.scheduledAt / 2 ^ (8 * L) % 256))
                    hL8 hsIdx
                  have hs3 : wheelSize (Schedule w1 e₀.id
                      (e₀.scheduledAt - n)) =
                      wheelSize { w1 with
                        slots := slotSet w1.slots L (e₀.scheduledAt / 2 ^ (8 * L) % 256) (e₀ :: w1.slots L (e₀.scheduledAt / 2 ^ (8 * L) % 256)) } :=
                    wheelSize_ext _ _ (by rw [hsched, hslotInsert])
                  rw [hs3] at hsize'
                  simp only [List.length_cons] at hsins
                  omega
              simp only [drainLoop, hslot]
              rw [hnow]
              simp only [if_pos hlev, if_neg hexec]
              exact hschedCase _ rfl rfl rfl rfl
          · -- level 0: execute
            have hℓ0 : ℓ = 0 := by omega
            have hsa : e₀.scheduledAt = n := by
              have h1 := hdue₀.1
              rw [hℓ0] at h1
              simpa using h1
            simp only [drainLoop, hslot]
            simp only [if_neg hlev, if_neg hm0]
            exact hexecCase _ hsa hnow rfl rfl rfl

lemma SlotCond_narrow (n b b' k s : Nat) (e : TimerEvent)
    (hc : SlotCond n b k s e)
    (hk : 2 ^ (8 * k) ∣ n → s = dueSlot n k → k < b') :
    SlotCond n b' k s e := by
  unfold SlotCond at hc ⊢
  by_cases hdue : 2 ^ (8 * k) ∣ n ∧ s = dueSlot n k
  · rw [if_pos hdue] at hc ⊢
    exact ⟨hk hdue.1 hdue.2, hc.2⟩
  · rw [if_neg hdue] at hc ⊢
    exact hc

lemma SlotCond_due (n b k : Nat) (e : TimerEvent) (hdvd : 2 ^ (8 * k) ∣ n)
    (hc : SlotCond n b k (dueSlot n k) e) :
    e.scheduledAt / 2 ^ (8 * k) = n / 2 ^ (8 * k) ∧ n ≤ e.scheduledAt := by
  unfold SlotCond at hc
  rw [if_pos ⟨hdvd, rfl⟩] at hc
  exact hc.2

/-- `ProcessCurrentSlot` at level `ℓ = 7 - left` during tick `n`
(`2^(8ℓ)` divides `n`, `ticks_pending_ = 0`, budget above the wheel
population): the cascade first empties the due slots of all higher due
levels, then the own due slot; every executed event has tick exactly `n`;
events are conserved and the wheel does not grow. -/
lemma processCurrentSlot_spec (n : Nat) :
    ∀ (left level : Nat) (w : TimerWheel) (m : Nat),
      left + level = 7 →
      2 ^ (8 * level) ∣ n →
      w.now = n → w.ticksPending = 0 →
      wheelSize w < m →
      (∀ k s e, e ∈ w.slots k s → k ≤ 7 ∧ s ≤ 255 ∧ SlotCond n 8 k s e) →
      ∃ w' batch, processCurrentSlot left w m level = (w', true) ∧
        w'.now = n ∧ w'.ticksPending = 0 ∧
        w'.log = w.log ++ batch ∧ (∀ e ∈ batch, e.scheduledAt = n) ∧
        MidState n level w' ∧
        (∀ ev, wheelCount w ev + w.log.count ev =
          wheelCount w' ev + w'.log.count ev) ∧
        wheelSize w' ≤ wheelSize w := by
  intro left
  induction left with
  | zero =>
      intro level w m hlv hdvd hnow htp hm hentry
      have hlevel : level = 7 := by omega
      have hIdx : w.now >>> (8 * level) % 256 = dueSlot n level := by
        rw [shiftRight_div, hnow]; rfl
      have hslotlen : (w.slots level (dueSlot n level)).length < m := by
        have := slot_length_le_wheelSize w level (dueSlot n level)
          (by omega) (dueSlot_lt n level)
        omega
      obtain ⟨w', batch, heq, hnow', htp', hlog', hbatch', hmid', hcons',
          hsize'⟩ :=
        drainLoop_spec n level hdvd (by omega)
          (w.slots level (dueSlot n level)).length w m hnow (le_refl _)
          hslotlen
          (by
            intro e he
            exact SlotCond_due n 8 level e hdvd
              ((hentry level (dueSlot n level) e he).2.2))
          (by
            intro k s e hpair he
            obtain ⟨hk7, hs255, hc⟩ := hentry k s e he
            refine ⟨hk7, hs255, SlotCond_narrow n 8 level k s e hc ?_⟩
            intro hdvdk hsk
            rcases Nat.lt_or_ge k level with h | h
            · exact h
            · exfalso
              have hk7' : k = 7 := by omega
              exact hpair ⟨by omega, by rw [hsk, hk7', ← hlevel]⟩)
      refine ⟨w', batch, ?_, hnow', by rw [htp', htp], hlog', hbatch', hmid',
        hcons', hsize'⟩
      show drainLoop level (w.now >>> (8 * level) % 256)
        (w.slots level (w.now >>> (8 * level) % 256)).length w m = (w', true)
      rw [hIdx]
      exact heq
  | succ left ihc =>
      intro level w m hlv hdvd hnow htp hm hentry
      have hlevel : level ≤ 6 := by omega
      have hIdx : w.now >>> (8 * level) % 256 = dueSlot n level := by
        rw [shiftRight_div, hnow]; rfl
      by_cases hIdx0 : dueSlot n level = 0
      · -- cascade into level + 1 first
        have hdvd1 : 2 ^ (8 * (level + 1)) ∣ n :=
          (cascade_guard n level hdvd).mp hIdx0
        obtain ⟨w₁, batch₁, heq₁, hnow₁, htp₁, hlog₁, hbatch₁, hmid₁, hcons₁,
            hsize₁⟩ :=
          ihc (level + 1) w m (by omega) hdvd1 hnow htp hm hentry
        have hslotlen : (w₁.slots level (dueSlot n level)).length < m := by
          have := slot_length_le_wheelSize w₁ level (dueSlot n level)
            (by omega) (dueSlot_lt n level)
          omega
        obtain ⟨w', batch₂, heq₂, hnow', htp', hlog', hbatch₂, hmid', hcons',
            hsize'⟩ :=
          drainLoop_spec n level hdvd (by omega)
            (w₁.slots level (dueSlot n level)).length w₁ m hnow₁ (le_refl _)
            hslotlen
            (by
              intro e he
              exact SlotCond_due n (level + 1) level e hdvd
                ((hmid₁.2 level (dueSlot n level) e he).2.2))
            (by
              intro k s e hpair he
              obtain ⟨hk7, hs255, hc⟩ := hmid₁.2 k s e he
              refine ⟨hk7, hs255,
                SlotCond_narrow n (level + 1) level k s e hc ?_⟩
              intro hdvdk hsk
              unfold SlotCond at hc
              rw [if_pos ⟨hdvdk, hsk⟩] at hc
              rcases Nat.lt_or_ge k level with h | h
              · exact h
              · exfalso
                have hkeq : k = level := by omega
                exact hpair ⟨hkeq, by rw [hsk, hkeq]⟩)
        refine ⟨w', batch₁ ++ batch₂, ?_, hnow', by rw [htp', htp₁],
          ?_, ?_, hmid', ?_, by omega⟩
        · simp only [processCurrentSlot]
          rw [hIdx, if_pos hIdx0, htp, heq₁]
          simp
          exact heq₂
        · rw [hlog', hlog₁, List.append_assoc]
        · intro e he
          rcases List.mem_append.mp he with h | h
          · exact hbatch₁ e h
          · exact hbatch₂ e h
        · intro ev
          have h1 := hcons₁ ev
          have h2 := hcons' ev
          omega
      · -- no cascade: the due levels above are empty because the guard
        -- fails
        have hnodvd1 : ¬2 ^ (8 * (level + 1)) ∣ n := by
          intro hd
          exact hIdx0 ((cascade_guard n level hdvd).mpr hd)
        have hslotlen : (w.slots level (dueSlot n level)).length < m := by
          have := slot_length_le_wheelSize w level (dueSlot n level)
            (by omega) (dueSlot_lt n level)
          omega
        obtain ⟨w', batch, heq, hnow', htp', hlog', hbatch', hmid', hcons',
            hsize'⟩ :=
          drainLoop_spec n level hdvd (by omega)
            (w.slots level (dueSlot n level)).length w m hnow (le_refl _)
            hslotlen
            (by
              intro e he
              exact SlotCond_due n 8 level e hdvd
                ((hentry level (dueSlot n level) e he).2.2))
            (by
              intro k s e hpair he
              obtain ⟨hk7, hs255, hc⟩ := hentry k s e he
              refine ⟨hk7, hs255, SlotCond_narrow n 8 level k s e hc ?_⟩
              intro hdvdk hsk
              rcases Nat.lt_or_ge k level with h | h
              · exact h
              · rcases Nat.eq_or_lt_of_le h with h' | h'
                · exact absurd ⟨h'.symm, by rw [hsk, ← h']⟩ hpair
                · exfalso
                  apply hnodvd1
                  exact dvd_trans (pow_dvd_pow 2 (by omega)) hdvdk)
        refine ⟨w', batch, ?_, hnow', by rw [htp', htp], hlog', hbatch',
          hmid', hcons', hsize'⟩
        simp only [processCurrentSlot]
        rw [hIdx, if_neg hIdx0]
        exact heq

/-- Incrementing the clock turns the wheel invariant into the entry
condition of the tick: events whose residual hits zero are exactly the
ones in the due slots. -/
lemma eventOk_step (n0 k s : Nat) (e : TimerEvent) (hk : k ≤ 7)
    (hok : eventOk n0 k s e) : SlotCond (n0 + 1) 8 k s e := by
  obtain ⟨hs, h1, h255⟩ := hok
  unfold SlotCond
  by_cases hdue : 2 ^ (8 * k) ∣ (n0 + 1) ∧ s = dueSlot (n0 + 1) k
  · rw [if_pos hdue]
    have hsucc := succ_div_of_dvd n0 (2 ^ (8 * k)) hdue.1
    have hmod : e.scheduledAt / 2 ^ (8 * k) % 256 =
        (n0 + 1) / 2 ^ (8 * k) % 256 := by
      rw [← hs, hdue.2]
      rfl
    have hAeq : e.scheduledAt / 2 ^ (8 * k) = (n0 + 1) / 2 ^ (8 * k) := by
      unfold dAt at h1 h255
      omega
    exact ⟨by omega, hAeq,
      le_of_div_eq_of_dvd (n0 + 1) e.scheduledAt (2 ^ (8 * k)) hdue.1
        (pow_pos (by norm_num) _) hAeq⟩
  · rw [if_neg hdue]
    by_cases hd : 2 ^ (8 * k) ∣ (n0 + 1)
    · have hsucc := succ_div_of_dvd n0 (2 ^ (8 * k)) hd
      have hneq : s ≠ dueSlot (n0 + 1) k := fun h => hdue ⟨hd, h⟩
      have hnotnext : e.scheduledAt / 2 ^ (8 * k) ≠
          (n0 + 1) / 2 ^ (8 * k) := by
        intro hA
        apply hneq
        rw [hs]
        unfold dueSlot
        rw [hA]
      refine ⟨hs, ?_, ?_⟩
      · unfold dAt at h1 h255 ⊢
        omega
      · unfold dAt at h1 h255 ⊢
        omega
    · have hsame := succ_div_of_not_dvd n0 (2 ^ (8 * k)) hd
      refine ⟨hs, ?_, ?_⟩
      · unfold dAt at h1 h255 ⊢
        omega
      · unfold dAt at h1 h255 ⊢
        omega

lemma midState_zero_inv (n : Nat) (w : TimerWheel) (h : MidState n 0 w) :
    WheelInv w := by
  intro k s e he
  obtain ⟨hk7, hs255, hc⟩ := h.2 k s e he
  refine ⟨hk7, hs255, ?_⟩
  unfold SlotCond at hc
  by_cases hdue : 2 ^ (8 * k) ∣ n ∧ s = dueSlot n k
  · rw [if_pos hdue] at hc
    omega
  · rw [if_neg hdue] at hc
    rw [h.1]
    exact hc

/-- A single tick of `advanceLoop`: incrementing the clock and processing
the due slots preserves the invariant, executes only events of this very
tick, conserves events, and never grows the wheel. -/
lemma tick_spec (w : TimerWheel) (m : Nat) (hInv : WheelInv w)
    (htp : w.ticksPending = 0) (hm : wheelSize w < m) :
    ∃ w' batch,
      processCurrentSlot 7 { w with now := w.now + 1 } m 0 = (w', true) ∧
      w'.now = w.now + 1 ∧ w'.ticksPending = 0 ∧
      w'.log = w.log ++ batch ∧ (∀ e ∈ batch, e.scheduledAt = w.now + 1) ∧
      WheelInv w' ∧
      (∀ ev, wheelCount w ev + w.log.count ev =
        wheelCount w' ev + w'.log.count ev) ∧
      wheelSize w' ≤ wheelSize w := by
  have hdvd0 : 2 ^ (8 * 0) ∣ w.now + 1 := by norm_num
  have hsize : wheelSize { w with now := w.now + 1 } = wheelSize w :=
    wheelSize_ext _ _ rfl
  obtain ⟨w', batch, heq, hnow', htp', hlog', hbatch', hmid', hcons',
      hsize'⟩ :=
    processCurrentSlot_spec (w.now + 1) 7 0 { w with now := w.now + 1 } m
      (by omega) hdvd0 rfl htp (by omega)
      (by
        intro k s e he
        obtain ⟨hk7, hs255, hok⟩ := hInv k s e he
        exact ⟨hk7, hs255, eventOk_step w.now k s e hk7 hok⟩)
  refine ⟨w', batch, heq, hnow', htp', hlog', hbatch',
    midState_zero_inv _ _ hmid', ?_, by omega⟩
  intro ev
  have := hcons' ev
  have hcc : wheelCount { w with now := w.now + 1 } ev = wheelCount w ev :=
    wheelCount_ext _ _ rfl ev
  rw [hcc] at this
  exact this

/-- The `while (delta--)` loop of `Advance` at level 0, from a clean
wheel: it succeeds, advances the clock by exactly `delta`, preserves the
invariant and the ordering of the log, and conserves events. -/
lemma advanceLoop_spec :
    ∀ (δ : Nat) (w : TimerWheel) (m : Nat),
      WheelInv w → w.ticksPending = 0 → wheelSize w < m → LogOk w →
      ∃ w', advanceLoop δ w m = (w', true) ∧ w'.now = w.now + δ ∧
        w'.ticksPending = 0 ∧ WheelInv w' ∧ LogOk w' ∧
        wheelSize w' ≤ wheelSize w ∧
        (∀ ev, wheelCount w ev + w.log.count ev =
          wheelCount w' ev + w'.log.count ev) := by
  intro δ
  induction δ with
  | zero =>
      intro w m h1 h2 h3 h4
      exact ⟨w, rfl, by omega, h2, h1, h4, le_refl _, fun ev => rfl⟩
  | succ δ ih =>
      intro w m h1 h2 h3 h4
      obtain ⟨w₁, batch, heq, hnow₁, htp₁, hlog₁, hbatch₁, hInv₁, hcons₁,
          hsize₁⟩ := tick_spec w m h1 h2 h3
      have hlog₁ok : LogOk w₁ := by
        constructor
        · rw [hlog₁]
          rw [List.pairwise_append]
          refine ⟨h4.1, ?_, ?_⟩
          · exact List.pairwise_of_forall_mem_list (fun a ha b hb => by
              rw [hbatch₁ a ha, hbatch₁ b hb])
          · intro a ha b hb
            rw [hbatch₁ b hb]
            have := h4.2 a ha
            omega
        · intro e he
          rw [hlog₁] at he
          rw [hnow₁]
          rcases List.mem_append.mp he with h | h
          · have := h4.2 e h
            omega
          · rw [hbatch₁ e h]
      obtain ⟨w', heq', hnow', htp', hInv', hlogok', hsize', hcons'⟩ :=
        ih w₁ m hInv₁ htp₁ (by omega) hlog₁ok
      refine ⟨w', ?_, by omega, htp', hInv', hlogok', by omega, ?_⟩
      · simp only [advanceLoop]
        rw [heq]
        simpa using heq'
      · intro ev
        have := hcons₁ ev
        have := hcons' ev
        omega

lemma Advance_of_tp_zero (w : TimerWheel) (δ m : Nat)
    (htp : w.ticksPending = 0) : Advance w δ m = advanceLoop δ w m := by
  simp [Advance, htp]

/-- Scheduling one event on an invariant-preserving wheel. -/
lemma Schedule_preserves (w : TimerWheel) (id D : Nat) (hD : 0 < D)
    (hbound : w.now + D < 2 ^ 64) (hInv : WheelInv w) :
    WheelInv (Schedule w id D) ∧
    wheelSize (Schedule w id D) = wheelSize w + 1 ∧
    (∀ ev, wheelCount (Schedule w id D) ev =
      wheelCount w ev + (if ev = ⟨id, w.now + D⟩ then 1 else 0)) := by
  have hdivlt : (w.now + D) / 2 ^ (8 * 7) < 256 := by
    apply Nat.div_lt_of_lt_mul
    calc w.now + D < 2 ^ 64 := hbound
    _ = 2 ^ (8 * 7) * 256 := by norm_num
  have h7 : dAt w.now (w.now + D) 7 ≤ 255 := by
    unfold dAt
    omega
  obtain ⟨L, hL7, hb1, hb255, hsched⟩ := Schedule_spec w id D hD h7
  have hL8 : L < 8 := by omega
  have hsIdx : (w.now + D) / 2 ^ (8 * L) % 256 < 256 :=
    Nat.mod_lt _ (by norm_num)
  have hslotInsert :
      slotInsert w.slots L ((w.now + D) / 2 ^ (8 * L) % 256)
        ⟨id, w.now + D⟩ =
      slotSet w.slots L ((w.now + D) / 2 ^ (8 * L) % 256)
        (⟨id, w.now + D⟩ :: w.slots L ((w.now + D) / 2 ^ (8 * L) % 256)) :=
    rfl
  refine ⟨?_, ?_, ?_⟩
  · intro k s e he
    rw [hsched, hslotInsert] at he
    simp only [slotSet] at he
    by_cases htgt : k = L ∧ s = (w.now + D) / 2 ^ (8 * L) % 256
    · rw [if_pos htgt] at he
      rcases List.mem_cons.mp he with hcase | hcase
      · subst hcase
        rw [htgt.1, htgt.2]
        refine ⟨by omega, by omega, rfl, ?_, ?_⟩
        · rw [Schedule_now]; exact hb1
        · rw [Schedule_now]; exact hb255
      · have := hInv k s e (by rw [htgt.1, htgt.2]; exact hcase)
        rw [Schedule_now]
        exact this
    · rw [if_neg htgt] at he
      have := hInv k s e he
      rw [Schedule_now]
      exact this
  · have hsins := wheelSize_slotSet w L ((w.now + D) / 2 ^ (8 * L) % 256)
      (⟨id, w.now + D⟩ :: w.slots L ((w.now + D) / 2 ^ (8 * L) % 256))
      hL8 hsIdx
    have hs3 : wheelSize (Schedule w id D) = wheelSize { w with
        slots := slotSet w.slots L ((w.now + D) / 2 ^ (8 * L) % 256) (⟨id, w.now + D⟩ :: w.slots L ((w.now + D) / 2 ^ (8 * L) % 256)) } :=
      wheelSize_ext _ _ (by rw [hsched, hslotInsert])
    simp only [List.length_cons] at hsins
    omega
  · intro ev
    have hcins := wheelCount_slotSet w L ((w.now + D) / 2 ^ (8 * L) % 256)
      (⟨id, w.now + D⟩ :: w.slots L ((w.now + D) / 2 ^ (8 * L) % 256))
      hL8 hsIdx ev
    have hc3 : wheelCount (Schedule w id D) ev = wheelCount { w with
        slots := slotSet w.slots L ((w.now + D) / 2 ^ (8 * L) % 256) (⟨id, w.now + D⟩ :: w.slots L ((w.now + D) / 2 ^ (8 * L) % 256)) } ev :=
      wheelCount_ext _ _ (by rw [hsched, hslotInsert]) ev
    have hccons : (⟨id, w.now + D⟩ ::
        w.slots L ((w.now + D) / 2 ^ (8 * L) % 256)).count ev =
        (w.slots L ((w.now + D) / 2 ^ (8 * L) % 256)).count ev +
          (if ev = ⟨id, w.now + D⟩ then 1 else 0) := by
      by_cases hev : ev = (⟨id, w.now + D⟩ : TimerEvent)
      · subst hev; simp [List.count_cons]
      · simp [List.count_cons, hev]
    omega

/-- Scheduling a batch of positive, in-range deltas from a fresh or
invariant-preserving wheel whose clock does not move. -/
lemma scheduleAll_spec :
    ∀ (ds : List (Nat × Nat)) (w : TimerWheel),
      WheelInv w →
      (∀ p ∈ ds, 0 < p.2 ∧ w.now + p.2 < 2 ^ 64) →
      WheelInv (scheduleAll w ds) ∧
      (scheduleAll w ds).now = w.now ∧
      (scheduleAll w ds).ticksPending = w.ticksPending ∧
      (scheduleAll w ds).log = w.log ∧
      wheelSize (scheduleAll w ds) = wheelSize w + ds.length ∧
      (∀ ev, wheelCount (scheduleAll w ds) ev = wheelCount w ev +
        (ds.map (fun p => (⟨p.1, w.now + p.2⟩ : TimerEvent))).count ev) := by
  intro ds
  induction ds with
  | nil =>
      intro w hInv _
      exact ⟨hInv, rfl, rfl, rfl, by simp [scheduleAll],
        fun ev => by simp [scheduleAll]⟩
  | cons p rest ih =>
      intro w hInv hds
      obtain ⟨hp, hpb⟩ := hds p (List.mem_cons_self p rest)
      obtain ⟨hInv₁, hsize₁, hcount₁⟩ :=
        Schedule_preserves w p.1 p.2 hp hpb hInv
      have hrest : ∀ q ∈ rest, 0 < q.2 ∧
          (Schedule w p.1 p.2).now + q.2 < 2 ^ 64 := by
        intro q hq
        rw [Schedule_now]
        exact hds q (List.mem_cons_of_mem p hq)
      obtain ⟨hInv', hnow', htp', hlog', hsize', hcount'⟩ :=
        ih (Schedule w p.1 p.2) hInv₁ hrest
      have hnoweq : (Schedule w p.1 p.2).now = w.now := Schedule_now w p.1 p.2
      have hu : scheduleAll w (p :: rest) =
          scheduleAll (Schedule w p.1 p.2) rest := rfl
      refine ⟨?_, ?_, ?_, ?_, ?_, ?_⟩
      · rw [hu]; exact hInv'
      · rw [hu, hnow', hnoweq]
      · rw [hu, htp']; exact Schedule_ticksPending w p.1 p.2
      · rw [hu, hlog']; exact Schedule_log w p.1 p.2
      · rw [hu, hsize', hsize₁]; simp; omega
      · intro ev
        rw [hu]
        have h1 := hcount' ev
        have h2 := hcount₁ ev
        rw [hnoweq] at h1
        have hcc : ((p :: rest).map
            (fun q => (⟨q.1, w.now + q.2⟩ : TimerEvent))).count ev =
            (rest.map (fun q => (⟨q.1, w.now + q.2⟩ : TimerEvent))).count ev +
              (if ev = ⟨p.1, w.now + p.2⟩ then 1 else 0) := by
          by_cases hev : ev = (⟨p.1, w.now + p.2⟩ : TimerEvent)
          · subst hev; simp [List.count_cons]
          · simp [List.count_cons, hev]
        omega

lemma count_le_count_map_proj {α β : Type} [DecidableEq α] [DecidableEq β]
    (f : α → β) : ∀ (l : List α) (x : α),
      l.count x ≤ (l.map f).count (f x) := by
  intro l x
  induction l with
  | nil => simp
  | cons a t ih =>
      simp only [List.count_cons, List.map_cons, beq_iff_eq]
      by_cases h : a = x
      · subst h
        simp only [if_pos rfl]
        omega
      · rw [if_neg h]
        by_cases h2 : f a = f x
        · rw [if_pos h2]
          omega
        · rw [if_neg h2]
          omega

lemma mkTimerWheel_inv (t0 : Nat) : WheelInv (mkTimerWheel t0) := by
  intro k s e he
  simp [mkTimerWheel] at he

lemma mkTimerWheel_logOk (t0 : Nat) : LogOk (mkTimerWheel t0) := by
  refine ⟨List.Pairwise.nil, ?_⟩
  intro e he
  simp [mkTimerWheel] at he

lemma mkTimerWheel_size (t0 : Nat) : wheelSize (mkTimerWheel t0) = 0 := by
  simp [wheelSize, mkTimerWheel]

lemma mkTimerWheel_count (t0 : Nat) (e : TimerEvent) :
    wheelCount (mkTimerWheel t0) e = 0 := by
  simp [wheelCount, mkTimerWheel]

/-- The state of the wheel after scheduling a batch `ds` of
`(id, delta)` pairs on a fresh wheel at tick `t0` and advancing it by
`δ` with budget `m`. -/
lemma advance_batch_spec (t0 : Nat) (ds : List (Nat × Nat)) (δ m : Nat)
    (hpos : ∀ p ∈ ds, 0 < p.2)
    (hbound : ∀ p ∈ ds, t0 + p.2 < 2 ^ 64)
    (hm : ds.length < m) :
    ∃ w', Advance (scheduleAll (mkTimerWheel t0) ds) δ m = (w', true) ∧
      w'.now = t0 + δ ∧ WheelInv w' ∧ LogOk w' ∧
      (∀ ev, (ds.map (fun p => (⟨p.1, t0 + p.2⟩ : TimerEvent))).count ev =
        wheelCount w' ev + w'.log.count ev) := by
  obtain ⟨hInv, hnow, htp, hlog, hsize, hcount⟩ :=
    scheduleAll_spec ds (mkTimerWheel t0) (mkTimerWheel_inv t0)
      (fun p hp => ⟨hpos p hp, hbound p hp⟩)
  have hlogok : LogOk (scheduleAll (mkTimerWheel t0) ds) := by
    constructor
    · rw [hlog]
      exact List.Pairwise.nil
    · intro e he
      rw [hlog] at he
      simp [mkTimerWheel] at he
  have htp0 : (scheduleAll (mkTimerWheel t0) ds).ticksPending = 0 := by
    rw [htp]
    rfl
  have hsz : wheelSize (scheduleAll (mkTimerWheel t0) ds) < m := by
    rw [hsize, mkTimerWheel_size]
    omega
  obtain ⟨w', heq, hnow', htp', hInv', hlogok', hsize', hcons'⟩ :=
    advanceLoop_spec δ (scheduleAll (mkTimerWheel t0) ds) m hInv htp0 hsz
      hlogok
  refine ⟨w', ?_, ?_, hInv', hlogok', ?_⟩
  · rw [Advance_of_tp_zero _ δ m htp0]
    exact heq
  · rw [hnow', hnow]
    rfl
  · intro ev
    have h1 := hcons' ev
    have h2 := hcount ev
    rw [mkTimerWheel_count,
      show (mkTimerWheel t0).now = t0 from rfl] at h2
    have h3 : (scheduleAll (mkTimerWheel t0) ds).log.count ev = 0 := by
      rw [hlog]
      rfl
    omega

/-- C1: for any batch of events scheduled with positive deltas from the
same starting tick `t0`, an `Advance` whose execution budget exceeds the
batch size succeeds and the executed events come out in non-decreasing
order of their scheduled tick `t0 + Δ_i`: every event scheduled for a
tick fires before any event scheduled for a later tick. -/
theorem C1_timer_ordering (t0 : Nat) (ds : List (Nat × Nat)) (δ m : Nat)
    (hpos : ∀ p ∈ ds, 0 < p.2)
    (hbound : ∀ p ∈ ds, t0 + p.2 < 2 ^ 64)
    (hm : ds.length < m) :
    ∃ w', Advance (scheduleAll (mkTimerWheel t0) ds) δ m = (w', true) ∧
      w'.log.Pairwise (fun a b => a.scheduledAt ≤ b.scheduledAt) := by
  obtain ⟨w', heq, _, _, hlogok, _⟩ :=
    advance_batch_spec t0 ds δ m hpos hbound hm
  exact ⟨w', heq, hlogok.1⟩

theorem C1_timer_ordering_witness :
    ∃ w', Advance (scheduleAll (mkTimerWheel 0) [(1, 3), (2, 5), (3, 5)])
        10 4 = (w', true) ∧
      w'.log.Pairwise (fun a b => a.scheduledAt ≤ b.scheduledAt) :=
  C1_timer_ordering 0 [(1, 3), (2, 5), (3, 5)] 10 4 (by decide) (by decide)
    (by decide)

/-- C7: an event scheduled at tick `t0 + D` with a distinct id is, once
unthrottled `Advance` calls have brought the clock to `t0 + D` or
beyond, no longer linked anywhere in the wheel and has been executed
exactly once. -/
theorem C7_timer_liveness (t0 : Nat) (ds : List (Nat × Nat))
    (id D δ m : Nat) (hmem : (id, D) ∈ ds)
    (hpos : ∀ p ∈ ds, 0 < p.2)
    (hbound : ∀ p ∈ ds, t0 + p.2 < 2 ^ 64)
    (hD : D ≤ δ) (hnodup : (ds.map Prod.fst).Nodup)
    (hm : ds.length < m) :
    ∃ w', Advance (scheduleAll (mkTimerWheel t0) ds) δ m = (w', true) ∧
      wheelCount w' ⟨id, t0 + D⟩ = 0 ∧
      w'.log.count ⟨id, t0 + D⟩ = 1 := by
  obtain ⟨w', heq, hnow', hInv', _, hcons'⟩ :=
    advance_batch_spec t0 ds δ m hpos hbound hm
  have hzero : wheelCount w' ⟨id, t0 + D⟩ = 0 := by
    apply wheelCount_zero_of_not_mem
    intro ℓ s hmem'
    obtain ⟨_, _, _, h1, _⟩ := hInv' ℓ s _ hmem'
    have h1' : 1 ≤ (t0 + D) / 2 ^ (8 * ℓ) - w'.now / 2 ^ (8 * ℓ) := by
      unfold dAt at h1
      exact h1
    have hle : t0 + D ≤ w'.now := by
      rw [hnow']
      omega
    have h2 : (t0 + D) / 2 ^ (8 * ℓ) ≤ w'.now / 2 ^ (8 * ℓ) :=
      Nat.div_le_div_right hle
    omega
  have hini : (ds.map
      (fun p => (⟨p.1, t0 + p.2⟩ : TimerEvent))).count ⟨id, t0 + D⟩ = 1 := by
    have hmm : (⟨id, t0 + D⟩ : TimerEvent) ∈
        ds.map (fun p => (⟨p.1, t0 + p.2⟩ : TimerEvent)) :=
      List.mem_map.mpr ⟨(id, D), hmem, rfl⟩
    have hge : 0 < (ds.map
        (fun p => (⟨p.1, t0 + p.2⟩ : TimerEvent))).count ⟨id, t0 + D⟩ :=
      List.count_pos_iff.mpr hmm
    have hmapid : (ds.map
        (fun p => (⟨p.1, t0 + p.2⟩ : TimerEvent))).map TimerEvent.id =
        ds.map Prod.fst := by
      rw [List.map_map]
      rfl
    have hle1 : (ds.map
        (fun p => (⟨p.1, t0 + p.2⟩ : TimerEvent))).count ⟨id, t0 + D⟩ ≤
        (ds.map Prod.fst).count id := by
      have h := count_le_count_map_proj TimerEvent.id
        (ds.map (fun p => (⟨p.1, t0 + p.2⟩ : TimerEvent))) ⟨id, t0 + D⟩
      rw [hmapid] at h
      exact h
    have hle2 := List.nodup_iff_count_le_one.mp hnodup id
    omega
  have := hcons' ⟨id, t0 + D⟩
  exact ⟨w', heq, hzero, by omega⟩

theorem C7_timer_liveness_witness :
    ∃ w', Advance (scheduleAll (mkTimerWheel 100) [(1, 3), (2, 300)])
        300 3 = (w', true) ∧
      wheelCount w' ⟨2, 100 + 300⟩ = 0 ∧
      w'.log.count ⟨2, 100 + 300⟩ = 1 :=
  C7_timer_liveness 100 [(1, 3), (2, 300)] 2 300 300 3 (by decide)
    (by decide) (by decide) (by decide) (by decide) (by decide)

end Libz
